import Mathlib

/-!
Verification development for the mailmcp email service.

The definitions below are shallow embeddings of the TypeScript source:
strings are lists of characters, each JavaScript regular-expression
replacement is hand-compiled into an explicit left-to-right scanner with
the same leftmost-match / greedy semantics, and the stateful parts
(token refresh, storage) are modelled by explicit state passing together
with explicit effect traces.
-/

set_option maxRecDepth 8192

namespace MailMcp

/-- Email text is modelled as a list of characters. -/
abbrev Str := List Char

/-- JavaScript whitespace class: the characters matched by a backslash-s
character class in a JavaScript regular expression (the same set is used
by String.prototype.trim). -/
def jsWs (c : Char) : Bool :=
  c == ' ' || c == '\t' || c == '\n' || c == '\x0b' || c == '\x0c' || c == '\r' ||
  c == '\u00A0' || c == '\u1680' ||
  (decide (0x2000 ≤ c.toNat) && decide (c.toNat ≤ 0x200a)) ||
  c == '\u2028' || c == '\u2029' || c == '\u202F' || c == '\u205F' ||
  c == '\u3000' || c == '\uFEFF'

/-- JavaScript line terminators: the positions recognised by the multiline
anchors of a JavaScript regular expression. -/
def isTerm (c : Char) : Bool :=
  c == '\n' || c == '\r' || c == '\u2028' || c == '\u2029'

/-- The invisible characters stripped by step 4 of cleanEmailText
(U+200B, U+200C, U+200D, U+FEFF, U+034F). -/
def isZw (c : Char) : Bool :=
  c == '\u200B' || c == '\u200C' || c == '\u200D' || c == '\uFEFF' || c == '\u034F'

/-- The space-or-tab class written as a bracket class of space and tab in the
source regexes. -/
def spTab (c : Char) : Bool :=
  c == ' ' || c == '\t'

/-- Drop trailing characters satisfying p. -/
def dropTrailing (p : Char → Bool) (l : Str) : Str :=
  (l.reverse.dropWhile p).reverse

/-- JavaScript String.prototype.trim on a character list. -/
def jsTrim (l : Str) : Str :=
  dropTrailing jsWs (l.dropWhile jsWs)

/-- Flag for the multiline caret after consuming a match: true when the last
consumed character is a line terminator (the scan continues at a line start). -/
def lastIsTerm (consumed : Str) (dflt : Bool) : Bool :=
  match consumed.getLast? with
  | some c => isTerm c
  | none => dflt

/-- A matcher receives the line-start flag and the current suffix, and returns
the replacement together with the number of consumed characters (at least one)
when the regex matches at this position. -/
abbrev Matcher := Bool → Str → Option (Str × Nat)

/-- Generic left-to-right global regex replacement: at each position try the
matcher; on a match emit the replacement and continue after the consumed
characters (as String.prototype.replace with a global regex does, scanning the
original string); otherwise emit one character and move on.  The first
argument is fuel, always instantiated with the length of the list plus one. -/
def replScan (m : Matcher) : Nat → Bool → Str → Str
  | 0, _, l => l
  | _ + 1, _, [] => []
  | fuel + 1, ls, c :: cs =>
    match m ls (c :: cs) with
    | some (r, k) =>
        r ++ replScan m fuel (lastIsTerm ((c :: cs).take k) ls) ((c :: cs).drop k)
    | none => c :: replScan m fuel (isTerm c) cs

/-- Run a global replacement from the start of the string (line-start true). -/
def runScan (m : Matcher) (l : Str) : Str :=
  replScan m (l.length + 1) true l

/-- Match a literal character-list pattern, returning the rest of the input. -/
def matchLit : Str → Str → Option Str
  | [], l => some l
  | _, [] => none
  | p :: ps, c :: cs => if c = p then matchLit ps cs else none

/-- Match the scheme part http(s):// — literal http, optional greedy s,
then literal ://, with the backtracking of the optional s. -/
def matchScheme (l : Str) : Option Str :=
  match matchLit ['h', 't', 't', 'p'] l with
  | none => none
  | some r =>
    match r with
    | 's' :: r2 =>
      match matchLit [':', '/', '/'] r2 with
      | some r3 => some r3
      | none => matchLit [':', '/', '/'] r
    | _ => matchLit [':', '/', '/'] r

/-- Matcher for step 1 of cleanEmailText: a bracket-wrapped URL, i.e. an
opening square bracket, http(s)://, one or more characters other than a
closing square bracket, then the closing square bracket.  Replaced by
nothing. -/
def mBracketUrl : Matcher := fun _ l =>
  match l with
  | '[' :: r =>
    match matchScheme r with
    | none => none
    | some r2 =>
      let inner := r2.takeWhile (fun c => c ≠ ']')
      if inner = [] then none
      else
        match r2.drop inner.length with
        | ']' :: _ => some ([], 1 + (r.length - r2.length) + inner.length + 1)
        | _ => none
  | _ => none

/-- Matcher for step 2 of cleanEmailText: a whole line that is exactly
http(s):// followed by one or more non-whitespace characters; anchored at a
line start and a line end (multiline flag).  Replaced by nothing. -/
def mUrlLine : Matcher := fun ls l =>
  if ls then
    match matchScheme l with
    | none => none
    | some r =>
      let t := r.takeWhile (fun c => !jsWs c)
      if t = [] then none
      else
        match r.drop t.length with
        | [] => some ([], l.length - r.length + t.length)
        | c :: _ => if isTerm c then some ([], l.length - r.length + t.length) else none
  else none

/-- Matcher for step 3 of cleanEmailText: an inline URL, http(s)://
followed greedily by one or more non-whitespace characters.  Replaced by
nothing. -/
def mInlineUrl : Matcher := fun _ l =>
  match matchScheme l with
  | none => none
  | some r =>
    let t := r.takeWhile (fun c => !jsWs c)
    if t = [] then none else some ([], l.length - r.length + t.length)

/-- Remove the five invisible characters, as the five successive global
single-character replacements of step 4 of cleanEmailText. -/
def cleanZw (l : Str) : Str :=
  ((((l.filter (fun c => c ≠ '\u200B')).filter (fun c => c ≠ '\u200C')).filter
    (fun c => c ≠ '\u200D')).filter (fun c => c ≠ '\uFEFF')).filter (fun c => c ≠ '\u034F')

/-- For the whitespace-only-line matcher: the largest cut j between 1 and rl
(the length of the whitespace run at this position) such that position j is a
line end, i.e. the input ends there or the character at j is a line
terminator.  This is where the greedy backslash-s-plus backtracks to. -/
def wsCut (l : Str) (rl : Nat) : Option Nat :=
  (List.range (rl + 1)).reverse.find?
    (fun j => decide (1 ≤ j) &&
      (decide (j = l.length) || ((l.get? j).map isTerm).getD false))

/-- Matcher for step 5 of cleanEmailText: one or more whitespace characters
spanning from a line start to a line end (multiline anchors; the whitespace
class includes line terminators, so a single match may span several lines,
and the greedy run backtracks to the last line end inside it).  Replaced by
nothing. -/
def mWsLine : Matcher := fun ls l =>
  if ls then
    let r := l.takeWhile jsWs
    if r = [] then none
    else
      match wsCut l r.length with
      | some j => some ([], j)
      | none => none
  else none

/-- Index of the last newline in a character list (meaningful only when a
newline is present). -/
def lastNlIdx (r : Str) : Nat :=
  r.length - 1 - (r.reverse.findIdx (fun c => c == '\n'))

/-- Matcher for step 7 of cleanEmailText, newline whitespace-star newline
whitespace-star newline-plus, replaced by two newlines.  All pattern pieces
match whitespace only, so a match lies inside the maximal whitespace run
starting at the current position; the backtracking search (greedy star,
star, plus) succeeds exactly when that run contains at least three newline
characters, and the resulting match extends through the last newline of the
run. -/
def mBlankRun : Matcher := fun _ l =>
  match l with
  | '\n' :: _ =>
    let r := l.takeWhile jsWs
    if 3 ≤ r.countP (fun c => c == '\n') then some (['\n', '\n'], lastNlIdx r + 1)
    else none
  | _ => none

/-- Step 7a of cleanEmailText: collapse each maximal run of spaces and tabs
to a single space (global replacement of space-tab-plus by one space). -/
def collapseSpTab : Str → Str
  | [] => []
  | [c] => if spTab c then [' '] else [c]
  | c1 :: c2 :: r =>
    if spTab c1 then
      if spTab c2 then collapseSpTab (c2 :: r)
      else ' ' :: collapseSpTab (c2 :: r)
    else c1 :: collapseSpTab (c2 :: r)

/-- Step 7b of cleanEmailText: remove runs of spaces and tabs directly after
a newline (global replacement of newline space-tab-plus by newline).  The
boolean state records whether we are directly after a newline (or inside a
run being dropped). -/
def dropAfterNl : Bool → Str → Str
  | _, [] => []
  | dropSp, c :: cs =>
    if dropSp && spTab c then dropAfterNl true cs
    else c :: dropAfterNl (c == '\n') cs

/-- Step 7c of cleanEmailText: remove runs of spaces and tabs directly
before a newline (global replacement of space-tab-plus newline by newline).
Pending spaces are buffered (reversed) until we see whether a newline
follows. -/
def dropBeforeNl (pending : Str) : Str → Str
  | [] => pending.reverse
  | c :: cs =>
    if spTab c then dropBeforeNl (c :: pending) cs
    else if c = '\n' then '\n' :: dropBeforeNl [] cs
    else pending.reverse ++ c :: dropBeforeNl [] cs

/-- Step 8 of cleanEmailText: strip leading newlines (anchored at the string
start) and trailing newlines (anchored at the string end). -/
def stripNlEdges (l : Str) : Str :=
  dropTrailing (fun c => c == '\n') (l.dropWhile (fun c => c == '\n'))

/-- EmailService.cleanEmailText: the ordered cleanup pipeline — trim,
bracket-URL removal, URL-only-line removal, inline-URL removal, invisible
character removal, whitespace-only-line removal, blank-run collapsing,
space/tab collapsing, per-line leading/trailing space removal, edge newline
removal, final trim. -/
def cleanEmailText (text : Str) : Str :=
  if text = [] then []
  else
    let t1 := jsTrim text
    let t2 := runScan mBracketUrl t1
    let t3 := runScan mUrlLine t2
    let t4 := runScan mInlineUrl t3
    let t5 := cleanZw t4
    let t6 := runScan mWsLine t5
    let t7 := runScan mBlankRun t6
    let t8 := collapseSpTab t7
    let t9 := dropAfterNl false t8
    let t10 := dropBeforeNl [] t9
    let t11 := stripNlEdges t10
    jsTrim t11

/-- The prefix of the pipeline up to and including inline-URL removal
(the state of the text before whitespace collapsing). -/
def cleanEmailTextPre (text : Str) : Str :=
  if text = [] then []
  else runScan mInlineUrl (runScan mUrlLine (runScan mBracketUrl (jsTrim text)))

/-- Adjacent-whitespace shape at the head of a suffix: when the first two
characters are both whitespace they must both be newlines (a blank line);
used to state that a string's whitespace is already normalized. -/
def adjOK : Str → Bool
  | a :: b :: _ => !(jsWs a && jsWs b) || (a == '\n' && b == '\n')
  | _ => true

/-- No-triple-newline shape at the head of a suffix. -/
def tripleNlFree : Str → Bool
  | '\n' :: '\n' :: '\n' :: _ => false
  | _ => true

/-! ## Generic HTML tag matchers (hand-compiled from the stripHtmlTags regexes) -/

/-- Match a literal pattern case-insensitively (the pattern is given in
lower case), returning the rest of the input. -/
def matchLitCI : Str → Str → Option Str
  | [], l => some l
  | _, [] => none
  | p :: ps, c :: cs => if c.toLower = p then matchLitCI ps cs else none

/-- Matcher for a closing tag with attribute junk: less-than, slash, the tag
name (case-insensitive), any characters other than greater-than, then
greater-than. -/
def mCloseTag (tag : Str) (repl : Str) : Matcher := fun _ l =>
  match l with
  | '<' :: '/' :: r =>
    match matchLitCI tag r with
    | none => none
    | some r2 =>
      let mid := r2.takeWhile (fun c => c ≠ '>')
      match r2.drop mid.length with
      | '>' :: _ => some (repl, 2 + tag.length + mid.length + 1)
      | _ => none
  | _ => none

/-- Matcher for an opening tag with attribute junk: less-than, the tag name
(case-insensitive), any characters other than greater-than, then
greater-than. -/
def mOpenTag (tag : Str) (repl : Str) : Matcher := fun _ l =>
  match l with
  | '<' :: r =>
    match matchLitCI tag r with
    | none => none
    | some r2 =>
      let mid := r2.takeWhile (fun c => c ≠ '>')
      match r2.drop mid.length with
      | '>' :: _ => some (repl, 1 + tag.length + mid.length + 1)
      | _ => none
  | _ => none

/-- Matcher for any remaining tag: less-than, any characters other than
greater-than, then greater-than; replaced by nothing. -/
def mAnyTag : Matcher := fun _ l =>
  match l with
  | '<' :: r =>
    let mid := r.takeWhile (fun c => c ≠ '>')
    match r.drop mid.length with
    | '>' :: _ => some ([], 1 + mid.length + 1)
    | _ => none
  | _ => none

/-- The block-level element list of stripHtmlTags, in source order. -/
def blockTags : List Str :=
  (["p", "div", "h1", "h2", "h3", "h4", "h5", "h6",
    "li", "dt", "dd", "blockquote", "pre", "address",
    "article", "section", "header", "footer", "main"]).map String.toList

/-! ## The mail model: parsed messages and body resolution -/

/-- The output of the external mail parser on a raw message source: an
optional plain-text representation and an optional HTML representation. -/
structure ParsedMail where
  text : Option Str
  html : Option Str
deriving Repr, DecidableEq

/-- JavaScript truthiness of an optional string: present and non-empty. -/
def jsTruthy : Option Str → Bool
  | some s => !s.isEmpty
  | none => false

/-- Modelled from the spec: the external html-to-text library conversion
used by performEmailFetch (the library itself is not part of this
repository).  Per the spec, block-level tags become newlines, a list item
becomes a bullet-prefixed line, and remaining tags are stripped. -/
def htmlToTextLib (html : Str) : Str :=
  let t := blockTags.foldl
    (fun t tag =>
      runScan (mOpenTag tag (if tag = ['l', 'i'] then '\n' :: '•' :: [' '] else ['\n']))
        (runScan (mCloseTag tag ['\n', '\n']) t))
    html
  jsTrim (runScan mAnyTag t)

/-- The HTML fallback of EmailService.performEmailFetch: if a (truthy)
HTML part is present, convert it and clean it; otherwise the message has no
content and the empty string is returned. -/
def htmlFallback (p : ParsedMail) : Option Str :=
  match p.html with
  | some h => if h ≠ [] then some (cleanEmailText (htmlToTextLib h)) else some []
  | none => some []

/-- EmailService.performEmailFetch, as a function of the fetch outcome: if
the UID does not resolve to a message the result is null; if the raw source
cannot be downloaded the result is null; otherwise the parsed source is
resolved — a truthy plain-text part wins, then a truthy HTML part is
converted, then the empty string. -/
def performEmailFetch (found : Bool) (src : Option ParsedMail) : Option Str :=
  if !found then none
  else
    match src with
    | none => none
    | some p =>
      match p.text with
      | some t => if t ≠ [] then some (cleanEmailText t) else htmlFallback p
      | none => htmlFallback p

/-! ## Accounts, token lifecycle and the storage model -/

/-- A stored account record (interface EmailAccount of storage.ts).
ISO date strings are modelled by their epoch milliseconds. -/
structure EmailAccount where
  email : Str
  displayName : Option Str := none
  provider : Str
  username : Str
  password : Str := []
  imapHost : Str := []
  imapPort : Nat := 993
  smtpHost : Str := []
  smtpPort : Nat := 465
  secure : Bool := true
  lastLogin : Option Int := none
  isActive : Bool := true
  accessToken : Option Str := none
  refreshToken : Option Str := none
  tokenExpiry : Option Int := none
deriving Repr, DecidableEq

/-- A successful token-refresh response (new access token, expiry time in
epoch milliseconds, optionally a new refresh token). -/
structure TokenResp where
  accessToken : Str
  expiry : Int
  refreshToken : Option Str := none
deriving Repr, DecidableEq

/-- The outcomes of the two remote refresh endpoints for one operation:
none models any failure (non-2xx, unsuccessful payload, or unreachable). -/
structure RefreshEnv where
  localResp : Option TokenResp := none
  googleResp : Option TokenResp := none
deriving Repr, DecidableEq

/-- Observable effects of the token-refresh and connection code. -/
inductive Effect where
  | callLocalRefresh
  | callGoogleRefresh
  | storageUpdate (acct : EmailAccount)
  | imapConnect
deriving Repr, DecidableEq

/-- The provider string of OAuth Gmail accounts. -/
def gmailStr : Str := 'G' :: 'm' :: 'a' :: 'i' :: ['l']

/-- EmailService.refreshOAuthToken: try the local refresh endpoint, fall
back to the direct Google token endpoint; on success update the account
(access token, expiry, last login, optionally refresh token) and persist it;
on total failure report none.  The effect list records the network calls and
the storage write. -/
def refreshOAuthToken (now : Int) (acct : EmailAccount) (env : RefreshEnv) :
    Option EmailAccount × List Effect :=
  match env.localResp with
  | some d =>
    let a2 := { acct with
      accessToken := some d.accessToken
      tokenExpiry := some d.expiry
      lastLogin := some now
      refreshToken := match d.refreshToken with
        | some r => some r
        | none => acct.refreshToken }
    (some a2, [Effect.callLocalRefresh, Effect.storageUpdate a2])
  | none =>
    match env.googleResp with
    | some d =>
      let a2 := { acct with
        accessToken := some d.accessToken
        tokenExpiry := some d.expiry
        lastLogin := some now
        refreshToken := match d.refreshToken with
          | some r => some r
          | none => acct.refreshToken }
      (some a2, [Effect.callLocalRefresh, Effect.callGoogleRefresh,
                 Effect.storageUpdate a2])
    | none =>
      (none, [Effect.callLocalRefresh, Effect.callGoogleRefresh])

/-- EmailService.checkAndRefreshToken: non-Gmail accounts and accounts
without a stored expiry pass through untouched; if the token expires in less
than five minutes a refresh is attempted when a (truthy) refresh token is
present; the boolean reports whether the token is usable afterwards. -/
def checkAndRefreshToken (now : Int) (acct : EmailAccount) (env : RefreshEnv) :
    Bool × EmailAccount × List Effect :=
  if acct.provider ≠ gmailStr then (true, acct, [])
  else
    match acct.tokenExpiry with
    | none => (true, acct, [])
    | some exp =>
      if exp - now < 5 * 60 * 1000 then
        match acct.refreshToken with
        | some r =>
          if r ≠ [] then
            match refreshOAuthToken now acct env with
            | (some a2, eff) => (true, a2, eff)
            | (none, eff) => (false, acct, eff)
          else (false, acct, [])
        | none => (false, acct, [])
      else (true, acct, [])

/-- Whether the OAuth pre-connection check applies: Gmail provider with a
truthy access token (the guard of connectImap, getEmailTextContent and
createTransporter). -/
def oauthGuardActive (acct : EmailAccount) : Bool :=
  acct.provider == gmailStr && jsTruthy acct.accessToken

/-- Errors surfaced by the service operations. -/
inductive EmailError where
  | authExpired
  | connectFailed
deriving Repr, DecidableEq

/-- EmailService.connectImap: for Gmail accounts with an access token the
token is checked and refreshed first; when that fails the operation throws
the re-authentication error; otherwise the connection proceeds (with the
possibly refreshed account). -/
def connectImap (now : Int) (acct : EmailAccount) (env : RefreshEnv) :
    Except EmailError (EmailAccount × List Effect) :=
  if oauthGuardActive acct then
    match checkAndRefreshToken now acct env with
    | (true, a2, eff) => .ok (a2, eff ++ [Effect.imapConnect])
    | (false, _, _) => .error .authExpired
  else .ok (acct, [Effect.imapConnect])

/-- EmailService.getEmailTextContent: same OAuth guard as connectImap, then
the fetch-and-resolve of performEmailFetch. -/
def getEmailTextContent (now : Int) (acct : EmailAccount) (env : RefreshEnv)
    (found : Bool) (src : Option ParsedMail) : Except EmailError (Option Str) :=
  if oauthGuardActive acct then
    match checkAndRefreshToken now acct env with
    | (true, _, _) => .ok (performEmailFetch found src)
    | (false, _, _) => .error .authExpired
  else .ok (performEmailFetch found src)

/-- EmailService.createTransporter (the send path): same OAuth guard before
any SMTP transport is built. -/
def createTransporter (now : Int) (acct : EmailAccount) (env : RefreshEnv) :
    Except EmailError (EmailAccount × List Effect) :=
  if oauthGuardActive acct then
    match checkAndRefreshToken now acct env with
    | (true, a2, eff) => .ok (a2, eff)
    | (false, _, _) => .error .authExpired
  else .ok (acct, [])

/-- The persisted storage document (interface StorageData of storage.ts);
lastUpdated is modelled in epoch milliseconds. -/
structure StorageData where
  accounts : List EmailAccount
  defaultAccount : Option Str := none
  lastUpdated : Int := 0
deriving Repr, DecidableEq

/-- File-system operations performed by the storage layer. -/
inductive FsOp where
  | writeFileOp (path : Str) (contents : Str)
  | renameOp (src dst : Str)
deriving Repr, DecidableEq

/-- Whether a file-system operation is a rename. -/
def FsOp.isRename : FsOp → Bool
  | renameOp _ _ => true
  | _ => false

/-- The storage file path (joined under the user home directory in the
source). -/
def storagePath : Str := (".mailmcp/storage.json").toList

/-- EmailStorage.writeStorage: stamp lastUpdated, then write the serialized
document directly to the storage path with a single writeFile call.  The
serializer (JSON.stringify with indentation) is abstracted as a parameter.
The returned list is the exact sequence of file-system operations
performed. -/
def writeStorage (pretty : StorageData → Str) (now : Int) (d : StorageData) :
    StorageData × List FsOp :=
  let d2 := { d with lastUpdated := now }
  (d2, [FsOp.writeFileOp storagePath (pretty d2)])

/-- Necessary condition for a write-temp-then-rename (or equivalent) write
protocol: the operation sequence contains a rename. -/
def usesRename (ops : List FsOp) : Bool :=
  ops.any FsOp.isRename

/-- EmailStorage.removeAccount: find the first account with the given email
(error when absent), splice it out, and if it was the default account make
the first remaining account (if any) the default. -/
def removeAccount (email : Str) (s : StorageData) : Except Unit StorageData :=
  match s.accounts.findIdx? (fun a => a.email == email) with
  | none => .error ()
  | some i =>
    let accs := s.accounts.eraseIdx i
    let dflt :=
      if s.defaultAccount == some email then
        match accs.head? with
        | some a => some a.email
        | none => none
      else s.defaultAccount
    .ok { s with accounts := accs, defaultAccount := dflt }

/-! ## stripHtmlTags and the body-parts extraction paths -/

/-- Quote characters accepted by the attribute regexes (double or single). -/
def isQuote (c : Char) : Bool :=
  c == '"' || c == '\''

/-- Matcher for the void tags br and hr: less-than, the tag name
(case-insensitive), optional whitespace, an optional slash, then
greater-than. -/
def mBrHr (tag : Str) (repl : Str) : Matcher := fun _ l =>
  match l with
  | '<' :: r =>
    match matchLitCI tag r with
    | none => none
    | some r2 =>
      let sp := r2.takeWhile jsWs
      match r2.drop sp.length with
      | '/' :: '>' :: _ => some (repl, 1 + tag.length + sp.length + 2)
      | '>' :: _ => some (repl, 1 + tag.length + sp.length + 1)
      | _ => none
  | _ => none

/-- Matcher for an exact literal pattern, case-insensitively. -/
def mExactCI (pat : Str) (repl : Str) : Matcher := fun _ l =>
  match matchLitCI pat l with
  | some _ => some (repl, pat.length)
  | none => none

/-- Matcher for an opening td or th cell tag: less-than, t, then d or h
(case-insensitive), attribute junk, greater-than; replaced by nothing. -/
def mTdThOpen : Matcher := fun _ l =>
  match l with
  | '<' :: c1 :: c2 :: r =>
    if c1.toLower = 't' && (c2.toLower = 'd' || c2.toLower = 'h') then
      let mid := r.takeWhile (fun c => c ≠ '>')
      match r.drop mid.length with
      | '>' :: _ => some ([], 2 + 1 + mid.length + 1)
      | _ => none
    else none
  | _ => none

/-- Matcher for a tag with an optional leading slash: less-than, optional
slash, the tag name (case-insensitive), attribute junk, greater-than. -/
def mSlashOptTag (tag : Str) (repl : Str) : Matcher := fun _ l =>
  match l with
  | '<' :: rest =>
    let slash : Nat := match rest with
      | '/' :: _ => 1
      | _ => 0
    let r := rest.drop slash
    match matchLitCI tag r with
    | none => none
    | some r2 =>
      let mid := r2.takeWhile (fun c => c ≠ '>')
      match r2.drop mid.length with
      | '>' :: _ => some (repl, 1 + slash + tag.length + mid.length + 1)
      | _ => none
  | _ => none

/-- Lazy scan up to a (case-insensitive) closing literal: consume characters
one at a time, trying the closing pattern first at each position (the
semantics of a lazy star followed by a literal).  When dotAll is false the
consumed characters may not be line terminators (a dot does not match
those).  Returns the consumed characters and the rest after the closing
pattern. -/
def lazyCapture (clo : Str) (dotAll : Bool) : Str → Option (Str × Str)
  | [] => none
  | c :: cs =>
    match matchLitCI clo (c :: cs) with
    | some r => some ([], r)
    | none =>
      if !dotAll && isTerm c then none
      else
        match lazyCapture clo dotAll cs with
        | some (cap, rest) => some (c :: cap, rest)
        | none => none

/-- Parse, at the current position, the attribute part of the anchor and
image regexes: the attribute name (case-insensitive), whitespace, an equals
sign, whitespace, a quote, the captured value (no quotes), a quote (either
kind), attribute junk, then greater-than.  Returns the captured value and
the rest after the greater-than. -/
def parseAttrTail (attr : Str) (l : Str) : Option (Str × Str) :=
  match matchLitCI attr l with
  | none => none
  | some r1 =>
    match r1.dropWhile jsWs with
    | '=' :: r3 =>
      match r3.dropWhile jsWs with
      | q :: r5 =>
        if isQuote q then
          match r5.drop ((r5.takeWhile (fun c => !isQuote c)).length) with
          | q2 :: r6 =>
            if isQuote q2 then
              match r6.drop ((r6.takeWhile (fun c => c ≠ '>')).length) with
              | '>' :: r7 => some (r5.takeWhile (fun c => !isQuote c), r7)
              | _ => none
            else none
          | [] => none
        else none
      | [] => none
    | _ => none

/-- The backtracking of the greedy attribute-junk star before the attribute
name: try the splits from i down to zero and return the first (longest)
one whose tail parses. -/
def attrSearch (attr : Str) (r : Str) : Nat → Option (Str × Str)
  | 0 => parseAttrTail attr r
  | i + 1 =>
    match parseAttrTail attr (r.drop (i + 1)) with
    | some res => some res
    | none => attrSearch attr r i

/-- Matcher for the anchor regex: less-than, a (case-insensitive),
attribute junk, href equals a quoted url (captured), attribute junk,
greater-than, then the lazily captured link text (no line terminators up to
the closing anchor tag).  Replaced by the text, a space, and the url in
parentheses. -/
def mAnchor : Matcher := fun _ l =>
  match l with
  | '<' :: c :: r =>
    if c.toLower = 'a' then
      let attrs := r.takeWhile (fun x => x ≠ '>')
      match attrSearch ['h', 'r', 'e', 'f'] r attrs.length with
      | none => none
      | some (url, rest) =>
        match lazyCapture ['<', '/', 'a', '>'] false rest with
        | none => none
        | some (txt, rest2) =>
          some (txt ++ ' ' :: '(' :: url ++ [')'], l.length - rest2.length)
    else none
  | _ => none

/-- Matcher for the image-with-alt regex: less-than, img
(case-insensitive), attribute junk, alt equals a quoted value (captured),
attribute junk, greater-than.  Replaced by the bracketed image marker with
the alt text (the source writes the marker with the Chinese word for
picture). -/
def mImgAlt : Matcher := fun _ l =>
  match l with
  | '<' :: r =>
    match matchLitCI ['i', 'm', 'g'] r with
    | none => none
    | some r2 =>
      let attrs := r2.takeWhile (fun x => x ≠ '>')
      match attrSearch ['a', 'l', 't'] r2 attrs.length with
      | none => none
      | some (alt, rest) =>
        some ('[' :: '图' :: '片' :: ':' :: ' ' :: alt ++ [']'], l.length - rest.length)
  | _ => none

/-- Matcher for a script or style block: the opening tag with attribute
junk, a lazy dot-all run, then the exact closing tag (case-insensitive).
Replaced by nothing. -/
def mLazyBlock (tag : Str) : Matcher := fun _ l =>
  match l with
  | '<' :: r =>
    match matchLitCI tag r with
    | none => none
    | some r2 =>
      let mid := r2.takeWhile (fun c => c ≠ '>')
      match r2.drop mid.length with
      | '>' :: r3 =>
        match lazyCapture ('<' :: '/' :: tag ++ ['>']) true r3 with
        | none => none
        | some (_, rest) => some ([], l.length - rest.length)
      | _ => none
  | _ => none

/-- The named HTML entity table of decodeHtmlEntities, in source order. -/
def namedEntities : List (Str × Str) :=
  ([("&nbsp;", " "), ("&amp;", "&"), ("&lt;", "<"), ("&gt;", ">"),
    ("&quot;", "\""), ("&#39;", "\'"), ("&apos;", "\'"), ("&copy;", "©"),
    ("&reg;", "®"), ("&trade;", "™"), ("&hellip;", "..."), ("&mdash;", "—"),
    ("&ndash;", "–"), ("&lsquo;", "‘"), ("&rsquo;", "’"),
    ("&ldquo;", "“"), ("&rdquo;", "”"), ("&bull;", "•"),
    ("&euro;", "€"), ("&pound;", "£"), ("&yen;", "¥")]).map
    (fun p => (p.1.toList, p.2.toList))

/-- Numeric value of a run of decimal digits. -/
def digitsVal (ds : Str) : Nat :=
  ds.foldl (fun acc c => acc * 10 + (c.toNat - '0'.toNat)) 0

/-- Matcher for a decimal numeric entity: ampersand, hash, one or more
digits, semicolon.  String.fromCharCode applies ToUint16, modelled as mod
65536 (inputs so large that float parsing loses precision, and code points
that are lone surrogates, are outside the scope of the claims; Char.ofNat
maps invalid code points to NUL). -/
def mDecEnt : Matcher := fun _ l =>
  match l with
  | '&' :: '#' :: r =>
    let ds := r.takeWhile (fun c => c.isDigit)
    if ds = [] then none
    else
      match r.drop ds.length with
      | ';' :: _ => some ([Char.ofNat (digitsVal ds % 65536)], 2 + ds.length + 1)
      | _ => none
  | _ => none

/-- Hexadecimal digit test for the hex entity class. -/
def isHexDig (c : Char) : Bool :=
  c.isDigit || ('a' ≤ c && c ≤ 'f') || ('A' ≤ c && c ≤ 'F')

/-- Numeric value of a run of hexadecimal digits. -/
def hexVal (ds : Str) : Nat :=
  ds.foldl (fun acc c =>
    acc * 16 +
      (if c.isDigit then c.toNat - '0'.toNat
       else if 'a' ≤ c && c ≤ 'f' then c.toNat - 'a'.toNat + 10
       else c.toNat - 'A'.toNat + 10)) 0

/-- Matcher for a hexadecimal numeric entity: ampersand, hash, a lowercase
x (the regex has no ignore-case flag), hex digits, semicolon; same ToUint16
remark as the decimal matcher. -/
def mHexEnt : Matcher := fun _ l =>
  match l with
  | '&' :: '#' :: 'x' :: r =>
    let ds := r.takeWhile isHexDig
    if ds = [] then none
    else
      match r.drop ds.length with
      | ';' :: _ => some ([Char.ofNat (hexVal ds % 65536)], 3 + ds.length + 1)
      | _ => none
  | _ => none

/-- EmailService.decodeHtmlEntities: the named entities in table order
(each as a global case-insensitive replacement), then decimal entities,
then hexadecimal entities. -/
def decodeHtmlEntities (t : Str) : Str :=
  runScan mHexEnt (runScan mDecEnt
    (namedEntities.foldl (fun t pr => runScan (mExactCI pr.1 pr.2) t) t))

/-- Matcher for three or more newlines, replaced by two. -/
def mNl3 : Matcher := fun _ l =>
  match l with
  | '\n' :: _ =>
    let run := l.takeWhile (fun c => c = '\n')
    if 3 ≤ run.length then some (['\n', '\n'], run.length) else none
  | _ => none

/-- EmailService.stripHtmlTags: the HTML-to-text conversion — block tags to
newlines (list items bulleted), br and hr, table cells and rows, anchors to
text plus url, images to bracketed markers, script and style blocks
dropped, remaining tags stripped, entities decoded, whitespace cleaned,
then a final trim. -/
def stripHtmlTags (html : Str) : Str :=
  if html = [] then []
  else
    let t := blockTags.foldl
      (fun t tag =>
        runScan (mOpenTag tag (if tag = ['l', 'i'] then '\n' :: '•' :: [' '] else ['\n']))
          (runScan (mCloseTag tag ['\n', '\n']) t))
      html
    let t := runScan (mBrHr ['b', 'r'] ['\n']) t
    let t := runScan (mBrHr ['h', 'r'] ('\n' :: '-' :: '-' :: '-' :: ['\n'])) t
    let t := runScan (mExactCI ('<' :: '/' :: 't' :: 'r' :: ['>']) ['\n']) t
    let t := runScan (mExactCI ('<' :: '/' :: 't' :: 'd' :: ['>']) ['\t']) t
    let t := runScan (mExactCI ('<' :: '/' :: 't' :: 'h' :: ['>']) ['\t']) t
    let t := runScan mTdThOpen t
    let t := runScan (mSlashOptTag ['t', 'a', 'b', 'l', 'e'] ['\n']) t
    let t := runScan (mSlashOptTag ['t', 'b', 'o', 'd', 'y'] []) t
    let t := runScan (mSlashOptTag ['t', 'h', 'e', 'a', 'd'] []) t
    let t := runScan (mOpenTag ['t', 'r'] []) t
    let t := runScan mAnchor t
    let t := runScan mImgAlt t
    let t := runScan (mOpenTag ['i', 'm', 'g'] ('[' :: '图' :: '片' :: [']'])) t
    let t := runScan (mLazyBlock ['s', 'c', 'r', 'i', 'p', 't']) t
    let t := runScan (mLazyBlock ['s', 't', 'y', 'l', 'e']) t
    let t := runScan mAnyTag t
    let t := decodeHtmlEntities t
    let t := collapseSpTab t
    let t := dropAfterNl false t
    let t := dropBeforeNl [] t
    let t := runScan mNl3 t
    jsTrim t

/-- The structural-tag list of isHtmlContent, in source order. -/
def htmlSniffTags : List Str :=
  (["html", "body", "div", "p", "br", "img", "a", "span",
    "table", "tr", "td"]).map String.toList

/-- One position of the isHtmlContent scan: a less-than, optional
whitespace, one of the structural tag names (case-insensitive), then any
characters other than greater-than and a greater-than (which reduces to the
rest containing a greater-than). -/
def sniffAt : Str → Bool
  | [] => false
  | c :: cs =>
    (if c = '<' then
      (htmlSniffTags.any (fun tag =>
        match matchLitCI tag (cs.dropWhile jsWs) with
        | some r => r.any (fun x => x = '>')
        | none => false))
    else false) || sniffAt cs

/-- EmailService.isHtmlContent: the structural-tag sniff (empty content is
falsy and reports false). -/
def isHtmlContent (content : Str) : Bool :=
  if content = [] then false else sniffAt content

/-- Matcher for a MIME boundary marker: two dashes then one or more
characters of the boundary class. -/
def mMimeBoundary : Matcher := fun _ l =>
  match l with
  | '-' :: '-' :: r =>
    let run := r.takeWhile (fun c => c.isAlphanum || c = '=' || c = '_' || c = '-')
    if run = [] then none else some ([], 2 + run.length)
  | _ => none

/-- Matcher for a MIME header line: the header prefix (case-insensitive),
then a lazy run of non-line-terminator characters, then a literal newline
(all consumed).  With a carriage return before the newline the dot cannot
reach the newline and the line is not removed, as in the source. -/
def mHeaderKill (pat : Str) : Matcher := fun _ l =>
  match matchLitCI pat l with
  | none => none
  | some r =>
    let seg := r.takeWhile (fun c => !isTerm c)
    match r.drop seg.length with
    | '\n' :: _ => some ([], pat.length + seg.length + 1)
    | _ => none

/-- EmailService.cleanPlainText: remove MIME boundary markers, remove
Content-Type / Content-Transfer-Encoding / Content-Disposition lines,
collapse blank runs (the same newline whitespace-star pattern as
cleanEmailText, without the trailing plus — the backtracked match is
identical), then trim. -/
def cleanPlainText (text : Str) : Str :=
  if text = [] then []
  else
    let t := runScan mMimeBoundary text
    let t := runScan (mHeaderKill ("content-type:").toList) t
    let t := runScan (mHeaderKill ("content-transfer-encoding:").toList) t
    let t := runScan (mHeaderKill ("content-disposition:").toList) t
    let t := runScan mBlankRun t
    jsTrim t

/-- The fetched body parts, as the insertion-ordered key-to-content map of
the imap library (keys are unique); buffer contents are modelled as already
UTF-8 decoded character lists. -/
abbrev BodyParts := List (Str × Str)

/-- Map lookup on the body parts. -/
def partsGet (bp : BodyParts) (k : Str) : Option Str :=
  (bp.find? (fun p => p.1 == k)).map (fun p => p.2)

/-- The fallthrough of the extraction paths: the first entry whose key is
not HEADER (a buffer is truthy even when empty), sniffed and converted or
cleaned. -/
def firstNonHeader : BodyParts → Str
  | [] => []
  | (k, v) :: rest =>
    if k ≠ ("HEADER").toList then
      (if isHtmlContent v then stripHtmlTags v else cleanPlainText v)
    else firstNonHeader rest

/-- EmailService.extractBodyFromParts (the listing path): a present TEXT
part is returned decoded verbatim — no sniff, no conversion, no cleaning;
only other parts get the sniff-and-convert treatment. -/
def extractBodyFromParts (bp : Option BodyParts) : Str :=
  match bp with
  | none => []
  | some parts =>
    match partsGet parts ("TEXT").toList with
    | some content => content
    | none => firstNonHeader parts

/-- EmailService.processEmailBodyFromParts (the detail path): TEXT first,
then part 1, then any non-HEADER part — each sniffed and converted or
cleaned. -/
def processEmailBodyFromParts (bp : Option BodyParts) : Str :=
  match bp with
  | none => []
  | some parts =>
    match partsGet parts ("TEXT").toList with
    | some content =>
      if isHtmlContent content then stripHtmlTags content else cleanPlainText content
    | none =>
      match partsGet parts ("1").toList with
      | some content =>
        if isHtmlContent content then stripHtmlTags content else cleanPlainText content
      | none => firstNonHeader parts

/-! ## Sample data used by witnesses and counterexamples -/

/-- An empty refresh environment (both refresh endpoints failing). -/
def noRefreshEnv : RefreshEnv := {}

/-- A Gmail OAuth account whose token expires ten minutes after epoch. -/
def freshGmailAccount : EmailAccount :=
  { email := "u@gmail.com".toList
    provider := gmailStr
    username := "u@gmail.com".toList
    accessToken := some "tok".toList
    refreshToken := some "ref".toList
    tokenExpiry := some 600000 }

/-- A Gmail OAuth account with an expired token and no refresh token. -/
def expiredGmailAccount : EmailAccount :=
  { email := "u@gmail.com".toList
    provider := gmailStr
    username := "u@gmail.com".toList
    accessToken := some "tok".toList
    refreshToken := none
    tokenExpiry := some 0 }

/-! ## Claim C1: plain text wins over HTML in body resolution -/

/-- Claim C1 (counterexample): the claim says that whenever the parsed raw
source has both a plain-text part and an HTML part, resolution returns the
cleaned plain-text content and never the HTML conversion.  On a message
whose plain-text part is the empty string and whose HTML part is a
paragraph, performEmailFetch returns the HTML-to-text conversion and not
the cleaned plain-text content. -/
theorem c1_empty_plain_loses :
    performEmailFetch true
        (some { text := some [], html := some "<p>hi</p>".toList }) =
      some (cleanEmailText (htmlToTextLib "<p>hi</p>".toList)) ∧
    performEmailFetch true
        (some { text := some [], html := some "<p>hi</p>".toList }) ≠
      some (cleanEmailText []) := by
  refine ⟨rfl, ?_⟩
  decide

/-- Claim C1 (amended): for every fetched message whose parsed raw source
contains a non-empty plain-text part and an HTML part, body resolution
returns the cleaned plain-text content, never the HTML-to-text
conversion. -/
theorem c1_plain_wins (t h : Str) (ht : t ≠ []) :
    performEmailFetch true (some { text := some t, html := some h }) =
      some (cleanEmailText t) := by
  simp [performEmailFetch, ht]

/-- Witness for c1_plain_wins at a concrete message. -/
theorem c1_plain_wins_witness :
    ("Hello".toList ≠ ([] : Str)) ∧
    performEmailFetch true
        (some { text := some "Hello".toList, html := some "<p>x</p>".toList }) =
      some (cleanEmailText "Hello".toList) :=
  ⟨by decide, c1_plain_wins "Hello".toList "<p>x</p>".toList (by decide)⟩

/-! ## Claim C3: absence is null, emptiness is the empty string -/

/-- Claim C3: body resolution distinguishes absence from emptiness — a
message that is not found resolves to null, a message whose content cannot
be downloaded resolves to null, and a found message whose plain-text part is
the empty string with no HTML part resolves to the empty string (and the
resolution function is total, so a structurally odd message never makes it
raise). -/
theorem c3_absent_vs_empty :
    (∀ src : Option ParsedMail, performEmailFetch false src = none) ∧
    performEmailFetch true none = none ∧
    performEmailFetch true (some { text := some [], html := none }) = some [] := by
  exact ⟨fun _ => rfl, rfl, rfl⟩

/-- Witness for c3_absent_vs_empty at a concrete unfound message. -/
theorem c3_absent_vs_empty_witness :
    performEmailFetch false (some { text := some "x".toList, html := none }) = none :=
  c3_absent_vs_empty.1 (some { text := some "x".toList, html := none })

/-! ## Claim C4: storage writes are not write-temp-then-rename -/

/-- Claim C4 (counterexample): the claim says every store write is
performed as write-temp-then-rename or equivalent; the operation trace of a
concrete writeStorage call contains no rename at all — it is a single
direct writeFile to the storage path. -/
theorem c4_no_rename :
    usesRename (writeStorage (fun _ => []) 0 { accounts := [] }).2 = false ∧
    (writeStorage (fun _ => []) 0 { accounts := [] }).2 =
      [FsOp.writeFileOp storagePath []] :=
  ⟨rfl, rfl⟩

/-- Claim C4 (amended): every credential-store write stamps lastUpdated and
then performs exactly one direct writeFile of the serialized document to the
storage path — no temp file and no rename, so file-level atomicity against a
concurrent reader is not provided by the code. -/
theorem c4_direct_write (pretty : StorageData → Str) (now : Int) (d : StorageData) :
    writeStorage pretty now d =
      ({ d with lastUpdated := now },
        [FsOp.writeFileOp storagePath (pretty { d with lastUpdated := now })]) :=
  rfl

/-- Witness for c4_direct_write at a concrete document. -/
theorem c4_direct_write_witness :
    writeStorage (fun _ => "x".toList) 7 { accounts := [] } =
      ({ accounts := [], lastUpdated := 7 },
        [FsOp.writeFileOp storagePath "x".toList]) :=
  c4_direct_write (fun _ => "x".toList) 7 { accounts := [] }

/-! ## Claim C6: a fresh token is left alone -/

/-- Claim C6: for every OAuth credential record whose token expiry is more
than five minutes in the future, the token-usability check performs no
network call, writes nothing to storage, and returns the record
unchanged. -/
theorem c6_fresh_token_untouched (now exp : Int) (acct : EmailAccount)
    (env : RefreshEnv) (hp : acct.provider = gmailStr)
    (he : acct.tokenExpiry = some exp) (hf : 5 * 60 * 1000 < exp - now) :
    checkAndRefreshToken now acct env = (true, acct, []) := by
  have hlt : ¬ (exp - now < 300000) := by omega
  simp [checkAndRefreshToken, hp, he, hlt]

/-- Witness for c6_fresh_token_untouched: a token expiring ten minutes in
the future is untouched. -/
theorem c6_fresh_token_untouched_witness :
    (5 * 60 * 1000 : Int) < 600000 - 0 ∧
    checkAndRefreshToken 0 freshGmailAccount noRefreshEnv =
      (true, freshGmailAccount, []) :=
  ⟨by decide, c6_fresh_token_untouched 0 600000 freshGmailAccount noRefreshEnv
    rfl rfl (by decide)⟩

/-! ## Claim C9: the listing path returns the TEXT part verbatim -/

/-- Claim C9: in the listing path, a present non-empty TEXT entry is
returned decoded verbatim with no HTML detection, conversion or cleaning,
even when it is HTML — while the detail path converts the same HTML TEXT
part (and the conversion actually differs from the raw part). -/
theorem c9_listing_text_verbatim (parts : BodyParts) (c : Str)
    (hc : partsGet parts ("TEXT").toList = some c) (_hne : c ≠ []) :
    extractBodyFromParts (some parts) = c ∧
    extractBodyFromParts (some [(("TEXT").toList, ("<p>hi</p>").toList)]) =
      ("<p>hi</p>").toList ∧
    processEmailBodyFromParts (some [(("TEXT").toList, ("<p>hi</p>").toList)]) =
      stripHtmlTags ("<p>hi</p>").toList ∧
    stripHtmlTags ("<p>hi</p>").toList ≠ ("<p>hi</p>").toList := by
  have h2 : partsGet parts ('T' :: 'E' :: 'X' :: ['T']) = some c := hc
  refine ⟨?_, rfl, ?_, by decide⟩
  · simp [extractBodyFromParts, h2]
  · decide

/-- Witness for c9_listing_text_verbatim at a concrete HTML TEXT part. -/
theorem c9_listing_text_verbatim_witness :
    extractBodyFromParts (some [(("TEXT").toList, ("<p>hi</p>").toList)]) =
      ("<p>hi</p>").toList :=
  (c9_listing_text_verbatim [(("TEXT").toList, ("<p>hi</p>").toList)]
    ("<p>hi</p>").toList rfl (by decide)).1

/-! ## Claim C5: link and image rendering in the HTML-to-text conversion -/

/-- Claim C5 (counterexample): the claim says an image with an alt
attribute renders as the bracketed image marker with the English word; the
code renders the marker with the Chinese word for picture. -/
theorem c5_image_marker_not_english :
    stripHtmlTags ("<img alt=\"x\">").toList =
      ('[' :: '图' :: '片' :: ':' :: ' ' :: 'x' :: [']']) ∧
    stripHtmlTags ("<img alt=\"x\">").toList ≠ ("[image: x]").toList := by
  exact ⟨by decide, by decide⟩

/-! ## Claim C7: expired token without refresh token fails as AuthExpired -/

/-- Claim C7: for every OAuth credential record whose token is expired (or
within the five-minute refresh window) and which has no refresh token,
connecting, fetching and sending all fail with the AuthExpired
(re-authenticate) error, and never silently proceed. -/
theorem c7_expired_without_refresh (now exp : Int) (tok : Str)
    (acct : EmailAccount) (env : RefreshEnv) (found : Bool)
    (src : Option ParsedMail)
    (hp : acct.provider = gmailStr) (ha : acct.accessToken = some tok)
    (hne : tok ≠ []) (he : acct.tokenExpiry = some exp)
    (hexp : exp - now < 5 * 60 * 1000)
    (hr : acct.refreshToken = none ∨ acct.refreshToken = some []) :
    connectImap now acct env = .error .authExpired ∧
    getEmailTextContent now acct env found src = .error .authExpired ∧
    createTransporter now acct env = .error .authExpired := by
  have hguard : oauthGuardActive acct = true := by
    cases tok with
    | nil => exact absurd rfl hne
    | cons c cs => simp [oauthGuardActive, hp, ha, jsTruthy]
  have hexpn : exp - now < 300000 := by omega
  have hchk : checkAndRefreshToken now acct env = (false, acct, []) := by
    rcases hr with h | h <;> simp [checkAndRefreshToken, hp, he, hexpn, h]
  refine ⟨?_, ?_, ?_⟩ <;> simp [connectImap, getEmailTextContent,
    createTransporter, hguard, hchk]

/-- Witness for c7_expired_without_refresh at a concrete expired account. -/
theorem c7_expired_without_refresh_witness :
    connectImap 1000000 expiredGmailAccount noRefreshEnv = .error .authExpired ∧
    getEmailTextContent 1000000 expiredGmailAccount noRefreshEnv true none =
      .error .authExpired ∧
    createTransporter 1000000 expiredGmailAccount noRefreshEnv =
      .error .authExpired :=
  c7_expired_without_refresh 1000000 0 "tok".toList expiredGmailAccount
    noRefreshEnv true none rfl rfl (by decide) rfl (by decide) (Or.inl rfl)

/-! ## Claim C10: removeAccount postconditions -/

/-- Accounts with duplicate emails (not produced by the add paths, but the
claim quantifies over every storage state). -/
def dupAccountA : EmailAccount :=
  { email := ('x' :: []), provider := ('Q' :: ['Q']), username := ('a' :: []) }

/-- Second account with the same email as dupAccountA. -/
def dupAccountB : EmailAccount :=
  { email := ('x' :: []), provider := ('Q' :: ['Q']), username := ('b' :: []) }

/-- An account with email y. -/
def otherAccountY : EmailAccount :=
  { email := ('y' :: []), provider := ('Q' :: ['Q']), username := ('c' :: []) }

/-- A storage state with two accounts sharing an email, that email being
the default. -/
def dupStorage : StorageData :=
  { accounts := [dupAccountA, dupAccountB], defaultAccount := some ('x' :: []) }

/-- A storage state whose default does not refer to any stored account. -/
def danglingStorage : StorageData :=
  { accounts := [dupAccountA, otherAccountY], defaultAccount := some ('z' :: []) }

/-- Claim C10 (counterexample): the claim quantifies over every storage
state; removeAccount splices out only the first matching account, so with a
duplicated email an account with the removed email remains; and a dangling
defaultAccount different from the removed email is left dangling, so the
claimed invariant (default refers to a stored account or is undefined) does
not hold for every state. -/
theorem c10_remove_first_only :
    removeAccount ('x' :: []) dupStorage =
      .ok { accounts := [dupAccountB], defaultAccount := some ('x' :: []) } ∧
    dupAccountB.email = ('x' :: []) ∧
    removeAccount ('x' :: []) danglingStorage =
      .ok { accounts := [otherAccountY], defaultAccount := some ('z' :: []) } ∧
    otherAccountY.email ≠ ('z' :: []) := by
  refine ⟨rfl, rfl, rfl, by decide⟩

/-- The account at the found index is the only one with that email under a
no-duplicate-emails hypothesis, so nothing with that email survives the
splice. -/
theorem email_not_mem_eraseIdx (l : List EmailAccount) (i : Nat) (e : Str)
    (hnd : (l.map (fun a => a.email)).Nodup) (hlt : i < l.length)
    (hie : (l[i]).email = e) :
    e ∉ (l.eraseIdx i).map (fun a => a.email) := by
  intro hmem
  obtain ⟨a, ha, hae⟩ := List.mem_map.mp hmem
  obtain ⟨j, hj, hji, hja⟩ := List.mem_eraseIdx_iff_getElem.mp ha
  have hinj := List.nodup_iff_injective_getElem.mp hnd
  have hlen : l.length = (l.map (fun a => a.email)).length := by simp
  have hEq : (l.map (fun a => a.email)).get ⟨j, by omega⟩ =
      (l.map (fun a => a.email)).get ⟨i, by omega⟩ := by
    simp only [List.get_eq_getElem, List.getElem_map]
    rw [hja, hae, hie]
  have hfin : (⟨j, by omega⟩ : Fin ((l.map (fun a => a.email)).length)) =
      (⟨i, by omega⟩ : Fin ((l.map (fun a => a.email)).length)) := by
    apply hinj
    simpa using hEq
  exact hji (by simpa using congrArg Fin.val hfin)

/-- An account whose email differs from the spliced one survives the
splice. -/
theorem email_mem_eraseIdx_of_ne (l : List EmailAccount) (i : Nat) (e d : Str)
    (hlt : i < l.length) (hie : (l[i]).email = e)
    (hd : d ∈ l.map (fun a => a.email)) (hne : d ≠ e) :
    d ∈ (l.eraseIdx i).map (fun a => a.email) := by
  obtain ⟨a, ha, hae⟩ := List.mem_map.mp hd
  obtain ⟨j, hj, hja⟩ := List.mem_iff_getElem.mp ha
  refine List.mem_map.mpr ⟨a, ?_, hae⟩
  refine List.mem_eraseIdx_iff_getElem.mpr ⟨j, hj, ?_, hja⟩
  intro hji
  subst hji
  rw [hja] at hie
  exact hne (hae ▸ hie ▸ rfl)

/-- Claim C10 (amended): for every storage state whose accounts have
pairwise-distinct emails and whose defaultAccount (when set) refers to a
stored account, and every stored email e: removeAccount e succeeds, no
account with email e remains, the default becomes the first remaining
account's email (or undefined) when e was the default and is unchanged
otherwise, and the resulting default refers to a stored account or is
undefined. -/
theorem c10_remove_account (s : StorageData) (e : Str)
    (hnd : (s.accounts.map (fun a => a.email)).Nodup)
    (hdv : ∀ d, s.defaultAccount = some d → d ∈ s.accounts.map (fun a => a.email))
    (he : e ∈ s.accounts.map (fun a => a.email)) :
    ∃ s2, removeAccount e s = .ok s2 ∧
      e ∉ s2.accounts.map (fun a => a.email) ∧
      (s.defaultAccount = some e →
        s2.defaultAccount = s2.accounts.head?.map (fun a => a.email)) ∧
      (∀ d, s.defaultAccount = some d → d ≠ e → s2.defaultAccount = some d) ∧
      (∀ d, s2.defaultAccount = some d → d ∈ s2.accounts.map (fun a => a.email)) := by
  have hsome : (s.accounts.findIdx? (fun a => a.email == e)).isSome := by
    rw [List.findIdx?_isSome, List.any_eq_true]
    obtain ⟨a, ha, hae⟩ := List.mem_map.mp he
    exact ⟨a, ha, by simp [hae]⟩
  obtain ⟨i, hi⟩ := Option.isSome_iff_exists.mp hsome
  obtain ⟨hlt, hpi, _⟩ := List.findIdx?_eq_some_iff_getElem.mp hi
  have hie : (s.accounts[i]).email = e := by simpa using hpi
  have hrm : removeAccount e s = .ok
      { s with accounts := s.accounts.eraseIdx i,
               defaultAccount :=
                 if s.defaultAccount == some e then
                   match (s.accounts.eraseIdx i).head? with
                   | some a => some a.email
                   | none => none
                 else s.defaultAccount } := by
    simp [removeAccount, hi]
  refine ⟨_, hrm, ?_, ?_, ?_, ?_⟩
  · exact email_not_mem_eraseIdx s.accounts i e hnd hlt hie
  · intro hde
    simp only [hde, beq_self_eq_true, if_true]
    cases (s.accounts.eraseIdx i).head? <;> simp
  · intro d hd hdne
    have : (s.defaultAccount == some e) = false := by
      rw [hd]
      simp [hdne]
    simp only [this, if_false]
    exact hd
  · intro d hd
    by_cases hc : s.defaultAccount = some e
    · simp only [hc, beq_self_eq_true, if_true] at hd
      cases hh : (s.accounts.eraseIdx i).head? with
      | none => rw [hh] at hd; simp at hd
      | some a =>
        rw [hh] at hd
        have had : a.email = d := by simpa using hd
        subst had
        exact List.mem_map.mpr ⟨a, List.mem_of_mem_head? (by simp [hh]), rfl⟩
    · have hcf : (s.defaultAccount == some e) = false := by
        simpa using hc
      simp only [hcf, if_false] at hd
      have hdm := hdv d hd
      have hdne : d ≠ e := by
        intro h
        exact hc (h ▸ hd)
      exact email_mem_eraseIdx_of_ne s.accounts i e d hlt hie hdm hdne

/-- A well-formed two-account store with distinct emails. -/
def twoAccountStorage : StorageData :=
  { accounts := [dupAccountA, otherAccountY], defaultAccount := some ('x' :: []) }

/-- Witness for c10_remove_account at a concrete two-account store. -/
theorem c10_remove_account_witness :
    ∃ s2, removeAccount ('x' :: []) twoAccountStorage = .ok s2 ∧
      ('x' :: []) ∉ s2.accounts.map (fun a => a.email) ∧
      ((some ('x' :: []) : Option Str) = some ('x' :: []) →
        s2.defaultAccount = s2.accounts.head?.map (fun a => a.email)) ∧
      (∀ d, (some ('x' :: []) : Option Str) = some d → d ≠ ('x' :: []) →
        s2.defaultAccount = some d) ∧
      (∀ d, s2.defaultAccount = some d → d ∈ s2.accounts.map (fun a => a.email)) :=
  c10_remove_account twoAccountStorage
    ('x' :: []) (by decide) (by intro d hd; cases hd; decide) (by decide)

/-! ## Generic scanner lemmas -/

/-- A scan over the empty list is the empty list at any fuel. -/
theorem replScan_nil (m : Matcher) (f : Nat) (b : Bool) :
    replScan m f b [] = [] := by
  cases f <;> rfl

/-- A scan whose matcher fires nowhere (on any suffix, any flag) is the
identity, at any fuel. -/
theorem replScan_id_of_none (m : Matcher) :
    ∀ (f : Nat) (b : Bool) (l : Str),
      (∀ (b2 : Bool) (t : Str), t <:+ l → m b2 t = none) → replScan m f b l = l := by
  intro f
  induction f with
  | zero => intro b l _; rfl
  | succ f ih =>
    intro b l h
    cases l with
    | nil => rfl
    | cons c cs =>
      have hnone := h b (c :: cs) List.suffix_rfl
      rw [replScan, hnone]
      exact congrArg (c :: ·)
        (ih (isTerm c) cs fun b2 t ht => h b2 t (ht.trans (List.suffix_cons c cs)))

/-- Identity of a scan whose matcher only ever fires on a head character
satisfying p, over a list with no such character. -/
theorem replScan_id_head (m : Matcher) (p : Char → Bool)
    (hm0 : ∀ b, m b [] = none)
    (hm : ∀ (b : Bool) (c : Char) (t : Str), p c = false → m b (c :: t) = none)
    (f : Nat) (b : Bool) (l : Str) (hl : ∀ c ∈ l, p c = false) :
    replScan m f b l = l := by
  refine replScan_id_of_none m f b l fun b2 t ht => ?_
  cases t with
  | nil => exact hm0 b2
  | cons c cs => exact hm b2 c cs (hl c (ht.mem (List.mem_cons_self c cs)))

/-- Matching a literal prefix. -/
theorem matchLit_self_append (p rest : Str) : matchLit p (p ++ rest) = some rest := by
  induction p with
  | nil => simp [matchLit]
  | cons c cs ih => simp [matchLit, ih]

/-- A literal match fails on a head mismatch. -/
theorem matchLit_none_of_head (p : Char) (ps : Str) (c : Char) (cs : Str)
    (h : c ≠ p) : matchLit (p :: ps) (c :: cs) = none := by
  simp [matchLit, h]

/-- The bracket-URL matcher fires only at an opening bracket. -/
theorem mBracketUrl_none (b : Bool) (c : Char) (t : Str) (h : c ≠ '[') :
    mBracketUrl b (c :: t) = none := by
  unfold mBracketUrl
  split
  · next heq => exact absurd (List.head_eq_of_cons_eq heq) h
  · rfl

/-- The bracket-URL matcher does not fire on the empty list. -/
theorem mBracketUrl_none_nil (b : Bool) : mBracketUrl b [] = none := rfl

/-- Identity of the trim on a list whose first and last characters are not
whitespace. -/
theorem jsTrim_eq_self (l : Str)
    (hh : ∀ c, l.head? = some c → jsWs c = false)
    (hl : ∀ c, l.getLast? = some c → jsWs c = false) :
    jsTrim l = l := by
  unfold jsTrim dropTrailing
  have h1 : l.dropWhile jsWs = l := by
    cases l with
    | nil => rfl
    | cons c cs => rw [List.dropWhile_cons, hh c rfl]; simp
  rw [h1]
  have h2 : l.reverse.dropWhile jsWs = l.reverse := by
    cases hrev : l.reverse with
    | nil => rfl
    | cons c cs =>
      rw [List.dropWhile_cons]
      have : l.getLast? = some c := by
        rw [← List.head?_reverse, hrev]; rfl
      rw [hl c this]
      simp
  rw [h2, List.reverse_reverse]

/-- One non-matching scanner step. -/
theorem replScan_step_none (m : Matcher) (f : Nat) (b : Bool) (c : Char) (cs : Str)
    (h : m b (c :: cs) = none) :
    replScan m (f + 1) b (c :: cs) = c :: replScan m f (isTerm c) cs := by
  rw [replScan, h]

/-- One matching scanner step. -/
theorem replScan_step_some (m : Matcher) (f : Nat) (b : Bool) (c : Char) (cs : Str)
    (r : Str) (k : Nat) (h : m b (c :: cs) = some (r, k)) :
    replScan m (f + 1) b (c :: cs) =
      r ++ replScan m f (lastIsTerm ((c :: cs).take k) b) ((c :: cs).drop k) := by
  rw [replScan, h]

/-- The line-start flag after a nonempty chunk only depends on the chunk's
last character. -/
theorem lastIsTerm_cons (c : Char) (cs : Str) (b : Bool) :
    lastIsTerm (c :: cs) b = lastIsTerm cs (isTerm c) := by
  cases cs with
  | nil => rfl
  | cons d ds =>
    unfold lastIsTerm
    rw [List.getLast?_cons_cons]
    cases heq : (d :: ds).getLast? with
    | none =>
      rw [List.getLast?_eq_getLast (d :: ds) (by simp)] at heq
      exact absurd heq (by simp)
    | some x => rfl

/-- Walking a scan through a chunk on which the matcher never fires (by its
head character): the chunk is emitted unchanged, consuming fuel equal to its
length, and the flag afterwards is determined by the chunk's last
character. -/
theorem replScan_through (m : Matcher) (p : Char → Bool)
    (hm : ∀ (b : Bool) (c : Char) (t : Str), p c = false → m b (c :: t) = none) :
    ∀ (w rest : Str), (∀ c ∈ w, p c = false) → ∀ (f : Nat) (b : Bool),
      replScan m (f + w.length) b (w ++ rest) =
        w ++ replScan m f (lastIsTerm w b) rest := by
  intro w
  induction w with
  | nil => intro rest _ f b; simp [lastIsTerm]
  | cons c cs ih =>
    intro rest hw f b
    have hstep : f + (c :: cs).length = (f + cs.length) + 1 := by
      simp [List.length_cons]
      omega
    rw [hstep]
    rw [List.cons_append,
      replScan_step_none m (f + cs.length) b c (cs ++ rest)
        (hm b c (cs ++ rest) (hw c (List.mem_cons_self c cs)))]
    rw [ih rest (fun x hx => hw x (List.mem_cons_of_mem c hx)) f (isTerm c)]
    rw [lastIsTerm_cons, List.cons_append]

/-- A case-insensitive literal match fails on a head mismatch. -/
theorem matchLitCI_none_of_head (p : Char) (ps : Str) (c : Char) (cs : Str)
    (h : ¬ c.toLower = p) : matchLitCI (p :: ps) (c :: cs) = none := by
  simp [matchLitCI, h]

/-- A successful case-insensitive literal match returns a suffix. -/
theorem matchLitCI_suffix (p : Str) :
    ∀ (l r : Str), matchLitCI p l = some r → r <:+ l := by
  induction p with
  | nil =>
    intro l r h
    simp [matchLitCI] at h
    subst h
    exact List.suffix_rfl
  | cons q qs ih =>
    intro l r h
    cases l with
    | nil => simp [matchLitCI] at h
    | cons c cs =>
      rw [matchLitCI] at h
      by_cases hc : c.toLower = q
      · rw [if_pos hc] at h
        exact (ih cs r h).trans (List.suffix_cons c cs)
      · rw [if_neg hc] at h
        exact absurd h (by simp)

/-- Characters whose lower-case form is a given non-lower-case-letter
character are that character itself. -/
theorem toLower_eq_nonletter (c t : Char)
    (ht : t.toNat < 97 ∨ 122 < t.toNat) (h : c.toLower = t) : c = t := by
  unfold Char.toLower at h
  simp only [] at h
  by_cases hc : c.toNat ≥ 65 ∧ c.toNat ≤ 90
  · rw [if_pos hc] at h
    exfalso
    have hvalid : Nat.isValidChar (c.toNat + 32) := by
      left
      omega
    have hval : (Char.ofNat (c.toNat + 32)).toNat = c.toNat + 32 := by
      simp [Char.ofNat, hvalid]
      rfl
    have hth := congrArg Char.toNat h
    rw [hval] at hth
    omega
  · rw [if_neg hc] at h
    exact h

/-- Counting over a suffix is bounded by counting over the list. -/
theorem countP_le_of_suffix (p : Char → Bool) (t l : Str) (h : t <:+ l) :
    t.countP p ≤ l.countP p := by
  obtain ⟨s, rfl⟩ := h
  rw [List.countP_append]
  omega

/-- A take-while over a clean chunk followed by a stopping character. -/
theorem takeWhile_chunk (p : Char → Bool) (u : Str) (c : Char) (rest : Str)
    (hu : ∀ x ∈ u, p x = true) (hc : p c = false) :
    (u ++ c :: rest).takeWhile p = u := by
  induction u with
  | nil => simp [List.takeWhile_cons, hc]
  | cons x xs ih =>
    rw [List.cons_append, List.takeWhile_cons, hu x (List.mem_cons_self x xs)]
    simp only [if_true]
    rw [ih (fun y hy => hu y (List.mem_cons_of_mem x hy))]

/-- Dropping the clean chunk lands on the stopping character. -/
theorem drop_chunk (u : Str) (rest : Str) :
    (u ++ rest).drop u.length = rest := by
  induction u with
  | nil => rfl
  | cons x xs ih => simpa using ih

/-- The attribute-tail parse fails on any suffix containing at most one
quote (it must consume both an opening and a closing quote). -/
theorem parseAttrTail_none_of_quotes (attr l : Str)
    (hq : l.countP (fun c => isQuote c) ≤ 1) : parseAttrTail attr l = none := by
  unfold parseAttrTail
  split
  · rfl
  next r1 hm =>
  split
  next r3 hd =>
    split
    next q r5 hd2 =>
      split
      next hqq =>
        split
        next q2 r6 hdrop =>
          split
          next hqq2 =>
            exfalso
            have hr1le : r1.countP (fun c => isQuote c) ≤ 1 :=
              le_trans (countP_le_of_suffix _ r1 l (matchLitCI_suffix attr l r1 hm)) hq
            have hr3le : ('=' :: r3).countP (fun c => isQuote c) ≤ 1 := by
              refine le_trans (countP_le_of_suffix _ _ r1 ?_) hr1le
              exact hd ▸ List.dropWhile_suffix jsWs
            have hr5le : (q :: r5).countP (fun c => isQuote c) ≤ 1 := by
              have h1 : ('=' :: r3).countP (fun c => isQuote c) =
                  r3.countP (fun c => isQuote c) := by
                rw [List.countP_cons]
                simp [isQuote]
              refine le_trans (countP_le_of_suffix _ _ r3 ?_) (h1 ▸ hr3le)
              exact hd2 ▸ List.dropWhile_suffix jsWs
            have hq2mem : q2 ∈ r5 :=
              List.mem_of_mem_drop (hdrop ▸ List.mem_cons_self q2 r6)
            have hr5pos : 0 < r5.countP (fun c => isQuote c) :=
              List.countP_pos_iff.mpr ⟨q2, hq2mem, hqq2⟩
            have hsplit : (q :: r5).countP (fun c => isQuote c) =
                r5.countP (fun c => isQuote c) + 1 := by
              rw [List.countP_cons]
              simp [hqq]
            omega
          next hqq2 => rfl
        next hdrop => rfl
      next hqq => rfl
    next hd2 => rfl
  next hd => rfl

/-- Characters other than the target cannot lower-case to it when the
target is not a lower-case letter. -/
theorem toLower_ne (c t : Char) (ht : t.toNat < 97 ∨ 122 < t.toNat)
    (h : c ≠ t) : ¬ c.toLower = t :=
  fun hl => h (toLower_eq_nonletter c t ht hl)

/-- The closing-tag matcher fires only at a less-than sign. -/
theorem mCloseTag_none_head (tag rep : Str) (b : Bool) (c : Char) (t : Str)
    (h : ¬ c = '<') : mCloseTag tag rep b (c :: t) = none := by
  unfold mCloseTag
  split
  · next heq => exact absurd (List.head_eq_of_cons_eq heq) h
  · rfl

/-- The closing-tag matcher needs a slash right after the less-than sign. -/
theorem mCloseTag_none_snd (tag rep : Str) (b : Bool) (c c2 : Char) (t : Str)
    (h : ¬ c2 = '/') : mCloseTag tag rep b (c :: c2 :: t) = none := by
  unfold mCloseTag
  split
  · next heq =>
    exact absurd (List.head_eq_of_cons_eq (List.tail_eq_of_cons_eq heq)) h
  · rfl

/-- The opening-tag matcher fires only at a less-than sign. -/
theorem mOpenTag_none_head (tag rep : Str) (b : Bool) (c : Char) (t : Str)
    (h : ¬ c = '<') : mOpenTag tag rep b (c :: t) = none := by
  unfold mOpenTag
  split
  · next heq => exact absurd (List.head_eq_of_cons_eq heq) h
  · rfl

/-- The opening-tag matcher needs the tag name after the less-than sign. -/
theorem mOpenTag_none_tag (tag rep : Str) (b : Bool) (c : Char) (t : Str)
    (h : matchLitCI tag t = none) : mOpenTag tag rep b (c :: t) = none := by
  unfold mOpenTag
  split
  · next heq =>
    rw [← List.tail_eq_of_cons_eq heq, h]
  · rfl

/-- The br and hr matcher fires only at a less-than sign. -/
theorem mBrHr_none_head (tag rep : Str) (b : Bool) (c : Char) (t : Str)
    (h : ¬ c = '<') : mBrHr tag rep b (c :: t) = none := by
  unfold mBrHr
  split
  · next heq => exact absurd (List.head_eq_of_cons_eq heq) h
  · rfl

/-- The br and hr matcher needs the tag name after the less-than sign. -/
theorem mBrHr_none_tag (tag rep : Str) (b : Bool) (c : Char) (t : Str)
    (h : matchLitCI tag t = none) : mBrHr tag rep b (c :: t) = none := by
  unfold mBrHr
  split
  · next heq =>
    rw [← List.tail_eq_of_cons_eq heq, h]
  · rfl

/-- The exact case-insensitive matcher fires only where its pattern's first
character matches; for a pattern starting with a symbol (less-than,
ampersand), only at that symbol. -/
theorem mExactCI_none_head (p0 : Char) (ps rep : Str) (b : Bool) (c : Char)
    (t : Str) (hp : p0.toNat < 97 ∨ 122 < p0.toNat) (h : ¬ c = p0) :
    mExactCI (p0 :: ps) rep b (c :: t) = none := by
  unfold mExactCI
  rw [matchLitCI_none_of_head p0 ps c t (toLower_ne c p0 hp h)]

/-- The td and th open matcher fires only at a less-than sign. -/
theorem mTdThOpen_none_head (b : Bool) (c : Char) (t : Str)
    (h : ¬ c = '<') : mTdThOpen b (c :: t) = none := by
  unfold mTdThOpen
  split
  · next heq => exact absurd (List.head_eq_of_cons_eq heq) h
  · next heq => rfl

/-- The slash-optional tag matcher fires only at a less-than sign. -/
theorem mSlashOptTag_none_head (tag rep : Str) (b : Bool) (c : Char) (t : Str)
    (h : ¬ c = '<') : mSlashOptTag tag rep b (c :: t) = none := by
  unfold mSlashOptTag
  split
  · next heq => exact absurd (List.head_eq_of_cons_eq heq) h
  · rfl

/-- The anchor matcher fires only at a less-than sign. -/
theorem mAnchor_none_head (b : Bool) (c : Char) (t : Str)
    (h : ¬ c = '<') : mAnchor b (c :: t) = none := by
  unfold mAnchor
  split
  · next heq => exact absurd (List.head_eq_of_cons_eq heq) h
  · rfl

/-- The image-with-alt matcher fires only at a less-than sign. -/
theorem mImgAlt_none_head (b : Bool) (c : Char) (t : Str)
    (h : ¬ c = '<') : mImgAlt b (c :: t) = none := by
  unfold mImgAlt
  split
  · next heq => exact absurd (List.head_eq_of_cons_eq heq) h
  · rfl

/-- The image-with-alt matcher needs img after the less-than sign. -/
theorem mImgAlt_none_tag (b : Bool) (c : Char) (t : Str)
    (h : matchLitCI ['i', 'm', 'g'] t = none) : mImgAlt b (c :: t) = none := by
  unfold mImgAlt
  split
  · next heq =>
    rw [← List.tail_eq_of_cons_eq heq, h]
  · rfl

/-- The script and style matcher fires only at a less-than sign. -/
theorem mLazyBlock_none_head (tag : Str) (b : Bool) (c : Char) (t : Str)
    (h : ¬ c = '<') : mLazyBlock tag b (c :: t) = none := by
  unfold mLazyBlock
  split
  · next heq => exact absurd (List.head_eq_of_cons_eq heq) h
  · rfl

/-- The script and style matcher needs its tag after the less-than sign. -/
theorem mLazyBlock_none_tag (tag : Str) (b : Bool) (c : Char) (t : Str)
    (h : matchLitCI tag t = none) : mLazyBlock tag b (c :: t) = none := by
  unfold mLazyBlock
  split
  · next heq =>
    rw [← List.tail_eq_of_cons_eq heq, h]
  · rfl

/-- The generic tag stripper fires only at a less-than sign. -/
theorem mAnyTag_none_head (b : Bool) (c : Char) (t : Str)
    (h : ¬ c = '<') : mAnyTag b (c :: t) = none := by
  unfold mAnyTag
  split
  · next heq => exact absurd (List.head_eq_of_cons_eq heq) h
  · rfl

/-- The decimal entity matcher fires only at an ampersand. -/
theorem mDecEnt_none_head (b : Bool) (c : Char) (t : Str)
    (h : ¬ c = '&') : mDecEnt b (c :: t) = none := by
  unfold mDecEnt
  split
  · next heq => exact absurd (List.head_eq_of_cons_eq heq) h
  · rfl

/-- The hexadecimal entity matcher fires only at an ampersand. -/
theorem mHexEnt_none_head (b : Bool) (c : Char) (t : Str)
    (h : ¬ c = '&') : mHexEnt b (c :: t) = none := by
  unfold mHexEnt
  split
  · next heq => exact absurd (List.head_eq_of_cons_eq heq) h
  · rfl

/-- The three-newline matcher fires only at a newline. -/
theorem mNl3_none_head (b : Bool) (c : Char) (t : Str)
    (h : ¬ c = '\n') : mNl3 b (c :: t) = none := by
  unfold mNl3
  split
  · next heq => exact absurd (List.head_eq_of_cons_eq heq) h
  · rfl

/-- Identity of a scan over a string with a single less-than sign at its
head, when the matcher does not fire there. -/
theorem runScan_id_one_lt (m : Matcher)
    (hmh : ∀ (b : Bool) (c : Char) (t : Str), ¬ c = '<' → m b (c :: t) = none)
    (mid : Str) (hmid : ∀ c ∈ mid, ¬ c = '<')
    (hm1 : ∀ b : Bool, m b ('<' :: mid) = none) :
    runScan m ('<' :: mid) = '<' :: mid := by
  unfold runScan
  have h1 : ('<' :: mid).length + 1 = (mid.length + 1) + 1 := by simp
  rw [h1, replScan_step_none m (mid.length + 1) true '<' mid (hm1 true)]
  congr 1
  rw [Nat.add_comm mid.length 1]
  have h3 := replScan_through m (fun c => decide (c = '<'))
    (fun b c t hc => hmh b c t (of_decide_eq_false hc)) mid []
    (fun c hc => decide_eq_false (hmid c hc)) 1 (isTerm '<')
  rw [List.append_nil] at h3
  rw [h3, replScan_nil, List.append_nil]

/-- Identity of a scan over a string with exactly two less-than signs (the
opening tag and a closing tag), when the matcher fires at neither. -/
theorem runScan_id_two_lt (m : Matcher)
    (hmh : ∀ (b : Bool) (c : Char) (t : Str), ¬ c = '<' → m b (c :: t) = none)
    (mid tail : Str) (hmid : ∀ c ∈ mid, ¬ c = '<') (htail : ∀ c ∈ tail, ¬ c = '<')
    (hm1 : ∀ b : Bool, m b ('<' :: (mid ++ '<' :: tail)) = none)
    (hm2 : ∀ b : Bool, m b ('<' :: tail) = none) :
    runScan m ('<' :: (mid ++ '<' :: tail)) = '<' :: (mid ++ '<' :: tail) := by
  unfold runScan
  have h1 : ('<' :: (mid ++ '<' :: tail)).length + 1 =
      ((mid ++ '<' :: tail).length + 1) + 1 := by simp
  rw [h1, replScan_step_none m ((mid ++ '<' :: tail).length + 1) true '<'
    (mid ++ '<' :: tail) (hm1 true)]
  congr 1
  have h2 : (mid ++ '<' :: tail).length + 1 = (tail.length + 2) + mid.length := by
    simp [List.length_append]
    omega
  rw [h2]
  have h3 := replScan_through m (fun c => decide (c = '<'))
    (fun b c t hc => hmh b c t (of_decide_eq_false hc)) mid ('<' :: tail)
    (fun c hc => decide_eq_false (hmid c hc)) (tail.length + 2) (isTerm '<')
  rw [h3]
  congr 1
  have h4 : tail.length + 2 = (tail.length + 1) + 1 := rfl
  rw [h4, replScan_step_none m (tail.length + 1) _ '<' tail (hm2 _)]
  congr 1
  rw [Nat.add_comm tail.length 1]
  have h5 := replScan_through m (fun c => decide (c = '<'))
    (fun b c t hc => hmh b c t (of_decide_eq_false hc)) tail []
    (fun c hc => decide_eq_false (htail c hc)) 1 (isTerm '<')
  rw [List.append_nil] at h5
  rw [h5, replScan_nil, List.append_nil]

/-- A fold by steps that each fix the accumulator fixes the accumulator. -/
theorem foldl_fixed {α : Type} {β : Type} (f : β → α → β) (a : β) (l : List α)
    (h : ∀ x ∈ l, f a x = a) : l.foldl f a = a := by
  induction l with
  | nil => rfl
  | cons x xs ih =>
    rw [List.foldl_cons, h x (List.mem_cons_self x xs)]
    exact ih (fun y hy => h y (List.mem_cons_of_mem x hy))

/-- The exact case-insensitive matcher does not fire when its literal does
not match here. -/
theorem mExactCI_none_of_matchLit (pat rep : Str) (b : Bool) (l : Str)
    (h : matchLitCI pat l = none) : mExactCI pat rep b l = none := by
  unfold mExactCI
  rw [h]

/-- The closing-tag matcher does not fire when the tag does not match after
the less-than slash. -/
theorem mCloseTag_none_tag (tag rep : Str) (b : Bool) (r : Str)
    (h : matchLitCI tag r = none) : mCloseTag tag rep b ('<' :: '/' :: r) = none := by
  simp only [mCloseTag]
  rw [h]

/-- The attribute middle of the anchor input. -/
def anchorMid (U T : Str) : Str :=
  'a' :: ' ' :: 'h' :: 'r' :: 'e' :: 'f' :: '=' :: '"' :: (U ++ '"' :: '>' :: T)

/-- The whole anchor input: an anchor element with href value U and text
T. -/
def anchorInput (U T : Str) : Str :=
  '<' :: (anchorMid U T ++ '<' :: ['/', 'a', '>'])

/-- The attribute middle of the image input. -/
def imgMid (A : Str) : Str :=
  'i' :: 'm' :: 'g' :: ' ' :: 'a' :: 'l' :: 't' :: '=' :: '"' :: (A ++ ['"', '>'])

/-- The whole image input: an img element with alt value A. -/
def imgInput (A : Str) : Str :=
  '<' :: imgMid A

/-- No block tag name matches at the anchor attribute middle. -/
theorem blocks_none_anchor (rest : Str) :
    ∀ tag ∈ blockTags, matchLitCI tag ('a' :: ' ' :: rest) = none := by
  intro tag htag
  simp only [blockTags, List.mem_map, List.mem_cons, List.not_mem_nil, or_false] at htag
  obtain ⟨str, hstr, rfl⟩ := htag
  rcases hstr with rfl | rfl | rfl | rfl | rfl | rfl | rfl | rfl | rfl | rfl |
    rfl | rfl | rfl | rfl | rfl | rfl | rfl | rfl | rfl <;> rfl

/-- No block tag name matches at the closing-anchor tail. -/
theorem blocks_none_close :
    ∀ tag ∈ blockTags, matchLitCI tag ('a' :: '>' :: []) = none := by
  intro tag htag
  simp only [blockTags, List.mem_map, List.mem_cons, List.not_mem_nil, or_false] at htag
  obtain ⟨str, hstr, rfl⟩ := htag
  rcases hstr with rfl | rfl | rfl | rfl | rfl | rfl | rfl | rfl | rfl | rfl |
    rfl | rfl | rfl | rfl | rfl | rfl | rfl | rfl | rfl <;> rfl

/-- No block tag name matches after the slash of the closing-anchor tail. -/
theorem blocks_none_slash (rest : Str) :
    ∀ tag ∈ blockTags, matchLitCI tag ('/' :: rest) = none := by
  intro tag htag
  simp only [blockTags, List.mem_map, List.mem_cons, List.not_mem_nil, or_false] at htag
  obtain ⟨str, hstr, rfl⟩ := htag
  rcases hstr with rfl | rfl | rfl | rfl | rfl | rfl | rfl | rfl | rfl | rfl |
    rfl | rfl | rfl | rfl | rfl | rfl | rfl | rfl | rfl <;> rfl

/-- No block tag name matches at the image attribute middle. -/
theorem blocks_none_img (rest : Str) :
    ∀ tag ∈ blockTags, matchLitCI tag ('i' :: 'm' :: 'g' :: ' ' :: rest) = none := by
  intro tag htag
  simp only [blockTags, List.mem_map, List.mem_cons, List.not_mem_nil, or_false] at htag
  obtain ⟨str, hstr, rfl⟩ := htag
  rcases hstr with rfl | rfl | rfl | rfl | rfl | rfl | rfl | rfl | rfl | rfl |
    rfl | rfl | rfl | rfl | rfl | rfl | rfl | rfl | rfl <;> rfl

/-- Space-and-tab collapsing distributes over an append whose left part
does not end in a space or tab. -/
theorem collapseSpTab_append (t : Str)
    (hlast : ∀ c, t.getLast? = some c → spTab c = false) (rest : Str) :
    collapseSpTab (t ++ rest) = collapseSpTab t ++ collapseSpTab rest := by
  induction t with
  | nil => rfl
  | cons c ts ih =>
    cases ts with
    | nil =>
      have hc : spTab c = false := hlast c rfl
      cases rest with
      | nil => simp [collapseSpTab, hc]
      | cons r0 rs =>
        show collapseSpTab (c :: r0 :: rs) = collapseSpTab [c] ++ collapseSpTab (r0 :: rs)
        rw [collapseSpTab, collapseSpTab]
        simp [hc]
    | cons c2 ts2 =>
      have hlast2 : ∀ x, (c2 :: ts2).getLast? = some x → spTab x = false := by
        intro x hx
        exact hlast x (by rw [List.getLast?_cons_cons]; exact hx)
      have ihx := ih hlast2
      show collapseSpTab (c :: c2 :: (ts2 ++ rest)) =
        collapseSpTab (c :: c2 :: ts2) ++ collapseSpTab rest
      rw [collapseSpTab, collapseSpTab]
      by_cases h1 : spTab c = true
      · by_cases h2 : spTab c2 = true
        · simp only [h1, h2, if_true]
          exact ihx
        · simp only [h1, if_true, h2, if_false, Bool.false_eq_true]
          rw [List.cons_append]
          exact congrArg (' ' :: ·) ihx
      · simp only [Bool.not_eq_true] at h1
        simp only [h1, Bool.false_eq_true, if_false]
        rw [List.cons_append]
        exact congrArg (c :: ·) ihx

/-- Space-and-tab collapsing is the identity on lists without spaces or
tabs. -/
theorem collapseSpTab_id_noSpTab (l : Str) (h : ∀ c ∈ l, spTab c = false) :
    collapseSpTab l = l := by
  induction l with
  | nil => rfl
  | cons c ts ih =>
    have hc := h c (List.mem_cons_self c ts)
    cases ts with
    | nil => simp [collapseSpTab, hc]
    | cons c2 ts2 =>
      rw [collapseSpTab]
      simp only [hc, Bool.false_eq_true, if_false]
      exact congrArg (c :: ·)
        (ih (fun x hx => h x (List.mem_cons_of_mem c hx)))

/-- Removing spaces after newlines is the identity on newline-free lists. -/
theorem dropAfterNl_id (l : Str) (h : '\n' ∉ l) : dropAfterNl false l = l := by
  induction l with
  | nil => rfl
  | cons c cs ih =>
    rw [dropAfterNl]
    have hc : (c == '\n') = false := by
      simp only [beq_eq_false_iff_ne, ne_eq]
      intro hcc
      exact h (hcc ▸ List.mem_cons_self c cs)
    simp only [Bool.false_and, Bool.false_eq_true, if_false, hc]
    exact congrArg (c :: ·) (ih (fun hm => h (List.mem_cons_of_mem c hm)))

/-- Removing spaces before newlines on a newline-free list only flushes the
pending buffer. -/
theorem dropBeforeNl_no_nl (l : Str) (h : '\n' ∉ l) :
    ∀ pending : Str, dropBeforeNl pending l = pending.reverse ++ l := by
  induction l with
  | nil => intro pending; simp [dropBeforeNl]
  | cons c cs ih =>
    intro pending
    have hc : ¬ c = '\n' := fun hcc => h (hcc ▸ List.mem_cons_self c cs)
    have htail : '\n' ∉ cs := fun hm => h (List.mem_cons_of_mem c hm)
    rw [dropBeforeNl]
    by_cases hsp : spTab c = true
    · rw [if_pos hsp, ih htail (c :: pending)]
      simp
    · simp only [hsp, Bool.false_eq_true, if_false]
      rw [if_neg hc, ih htail []]
      simp

/-- Every named entity pattern starts with an ampersand. -/
theorem namedEntities_amp :
    ∀ pr ∈ namedEntities, ∃ ps : Str, pr.1 = '&' :: ps := by
  intro pr hpr
  simp only [namedEntities, List.mem_map, List.mem_cons, List.not_mem_nil,
    or_false] at hpr
  obtain ⟨p, hp, rfl⟩ := hpr
  rcases hp with rfl | rfl | rfl | rfl | rfl | rfl | rfl | rfl | rfl | rfl |
    rfl | rfl | rfl | rfl | rfl | rfl | rfl | rfl | rfl | rfl | rfl <;>
    exact ⟨_, rfl⟩

/-- Entity decoding is the identity on ampersand-free lists. -/
theorem decodeHtmlEntities_id (l : Str) (h : ∀ c ∈ l, ¬ c = '&') :
    decodeHtmlEntities l = l := by
  unfold decodeHtmlEntities
  have hfold : namedEntities.foldl (fun t pr => runScan (mExactCI pr.1 pr.2) t) l = l := by
    apply foldl_fixed
    intro pr hpr
    obtain ⟨ps, hps⟩ := namedEntities_amp pr hpr
    refine replScan_id_head (mExactCI pr.1 pr.2) (fun c => c == '&')
      (by intro b; rw [hps]; rfl)
      (fun b c t hcb => ?_) _ _ _ (fun c hc => by simpa using h c hc)
    rw [hps]
    refine mExactCI_none_head '&' ps pr.2 b c t (by decide) ?_
    simpa using hcb
  rw [hfold]
  have hdec : runScan mDecEnt l = l :=
    replScan_id_head mDecEnt (fun c => c == '&') (fun b => rfl)
      (fun b c t hcb => mDecEnt_none_head b c t (by simpa using hcb)) _ _ _
      (fun c hc => by simpa using h c hc)
  rw [hdec]
  exact replScan_id_head mHexEnt (fun c => c == '&') (fun b => rfl)
    (fun b c t hcb => mHexEnt_none_head b c t (by simpa using hcb)) _ _ _
    (fun c hc => by simpa using h c hc)

/-- The attribute-junk backtracking search reduces to the split at one when
all larger splits fail. -/
theorem attrSearch_to_one (attr r : Str) :
    ∀ i : Nat, (∀ j, 2 ≤ j → j ≤ i + 1 → parseAttrTail attr (r.drop j) = none) →
      attrSearch attr r (i + 1) = attrSearch attr r 1 := by
  intro i
  induction i with
  | zero => intro _; rfl
  | succ n ih =>
    intro h
    rw [attrSearch, h (n + 2) (by omega) (le_refl _)]
    exact ih (fun j hj1 hj2 => h j hj1 (by omega))

/-- The attribute-tail parse fails when the attribute literal does not
match. -/
theorem parseAttrTail_none_of_matchLit (attr l : Str)
    (h : matchLitCI attr l = none) : parseAttrTail attr l = none := by
  unfold parseAttrTail
  rw [h]

/-- The lazy capture walks over characters that cannot start the closing
literal and are not line terminators, and stops at the closing literal. -/
theorem lazyCapture_eval (p0 : Char) (ps : Str) (t tailI rest : Str)
    (hm : matchLitCI (p0 :: ps) tailI = some rest) (htne : tailI ≠ [])
    (ht : ∀ c ∈ t, isTerm c = false ∧ ¬ c.toLower = p0) :
    lazyCapture (p0 :: ps) false (t ++ tailI) = some (t, rest) := by
  induction t with
  | nil =>
    cases tailI with
    | nil => exact absurd rfl htne
    | cons c cs =>
      rw [List.nil_append, lazyCapture, hm]
  | cons c cs ih =>
    have hc := ht c (List.mem_cons_self c cs)
    rw [List.cons_append, lazyCapture,
      matchLitCI_none_of_head p0 ps c (cs ++ tailI) hc.2]
    simp only [Bool.not_false, Bool.true_and, hc.1, Bool.false_eq_true, if_false]
    rw [ih (fun x hx => ht x (List.mem_cons_of_mem c hx))]

/-- Evaluation of the attribute-tail parse at the href literal with a
quoted quote-free value. -/
theorem parseAttrTail_href (U rest : Str) (hUq : ∀ c ∈ U, (!isQuote c) = true) :
    parseAttrTail ['h', 'r', 'e', 'f']
      ('h' :: 'r' :: 'e' :: 'f' :: '=' :: '"' :: (U ++ '"' :: '>' :: rest)) =
      some (U, rest) := by
  have hu : ∀ c ∈ U, (!c == '"' && !c == '\'') = true := by
    intro c hc
    have h := hUq c hc
    simp only [isQuote, Bool.not_or, Bool.and_eq_true] at h
    simp [h.1, h.2]
  have h1 : matchLitCI ['h', 'r', 'e', 'f']
      ('h' :: 'r' :: 'e' :: 'f' :: '=' :: '"' :: (U ++ '"' :: '>' :: rest)) =
      some ('=' :: '"' :: (U ++ '"' :: '>' :: rest)) := rfl
  have hdw1 : List.dropWhile jsWs ('=' :: '"' :: (U ++ '"' :: '>' :: rest)) =
      '=' :: '"' :: (U ++ '"' :: '>' :: rest) := by
    simp [List.dropWhile_cons, show jsWs '=' = false from rfl]
  have hdw2 : List.dropWhile jsWs ('"' :: (U ++ '"' :: '>' :: rest)) =
      '"' :: (U ++ '"' :: '>' :: rest) := by
    simp [List.dropWhile_cons, show jsWs '"' = false from rfl]
  have htw : (U ++ '"' :: '>' :: rest).takeWhile (fun c => !c == '"' && !c == '\'') = U :=
    takeWhile_chunk _ U '"' ('>' :: rest) hu (by decide)
  have hdr : (U ++ '"' :: '>' :: rest).drop U.length = '"' :: '>' :: rest :=
    drop_chunk U ('"' :: '>' :: rest)
  have htwQ : (U ++ '"' :: '>' :: rest).takeWhile (fun c => !isQuote c) = U :=
    takeWhile_chunk _ U '"' ('>' :: rest) hUq (by decide)
  unfold parseAttrTail
  rw [h1]
  simp only [hdw1, hdw2, htwQ, hdr]
  simp
  decide

/-- Evaluation of the attribute-tail parse at the alt literal with a quoted
quote-free value. -/
theorem parseAttrTail_alt (A : Str) (hAq : ∀ c ∈ A, (!isQuote c) = true) :
    parseAttrTail ['a', 'l', 't']
      ('a' :: 'l' :: 't' :: '=' :: '"' :: (A ++ ['"', '>'])) =
      some (A, []) := by
  have hu : ∀ c ∈ A, (!c == '"' && !c == '\'') = true := by
    intro c hc
    have h := hAq c hc
    simp only [isQuote, Bool.not_or, Bool.and_eq_true] at h
    simp [h.1, h.2]
  have h1 : matchLitCI ['a', 'l', 't']
      ('a' :: 'l' :: 't' :: '=' :: '"' :: (A ++ ['"', '>'])) =
      some ('=' :: '"' :: (A ++ ['"', '>'])) := rfl
  have hdw1 : List.dropWhile jsWs ('=' :: '"' :: (A ++ ['"', '>'])) =
      '=' :: '"' :: (A ++ ['"', '>']) := by
    simp [List.dropWhile_cons, show jsWs '=' = false from rfl]
  have hdw2 : List.dropWhile jsWs ('"' :: (A ++ ['"', '>'])) =
      '"' :: (A ++ ['"', '>']) := by
    simp [List.dropWhile_cons, show jsWs '"' = false from rfl]
  have htw : (A ++ ['"', '>']).takeWhile (fun c => !c == '"' && !c == '\'') = A :=
    takeWhile_chunk _ A '"' ['>'] hu (by decide)
  have hdr : (A ++ ['"', '>']).drop A.length = ['"', '>'] :=
    drop_chunk A ['"', '>']
  have htwQ : (A ++ ['"', '>']).takeWhile (fun c => !isQuote c) = A :=
    takeWhile_chunk _ A '"' ['>'] hAq (by decide)
  unfold parseAttrTail
  rw [h1]
  simp only [hdw1, hdw2, htwQ, hdr]
  simp
  decide

/-- Evaluation of the anchor matcher at a well-formed anchor element whose
url has no quotes and no greater-than sign and whose text has no line
terminators, no characters lower-casing to a less-than sign, and no
quotes: it fires, produces the text followed by the parenthesised url, and
consumes the whole element. -/
theorem mAnchor_eval (U T : Str) (b : Bool)
    (hUq : ∀ c ∈ U, (!isQuote c) = true) (hUg : ∀ c ∈ U, ¬ c = '>')
    (hT : ∀ c ∈ T, isTerm c = false ∧ ¬ c.toLower = '<' ∧ (!isQuote c) = true) :
    mAnchor b (anchorInput U T) =
      some (T ++ ' ' :: '(' :: U ++ [')'], (anchorInput U T).length) := by
  have hshape : anchorInput U T =
      '<' :: 'a' :: (' ' :: 'h' :: 'r' :: 'e' :: 'f' :: '=' :: '"' ::
        (U ++ '"' :: '>' :: (T ++ '<' :: ['/', 'a', '>']))) := by
    simp [anchorInput, anchorMid]
  have hsplit : (' ' :: 'h' :: 'r' :: 'e' :: 'f' :: '=' :: '"' ::
      (U ++ '"' :: '>' :: (T ++ '<' :: ['/', 'a', '>']))) =
      (' ' :: 'h' :: 'r' :: 'e' :: 'f' :: '=' :: '"' :: (U ++ ['"'])) ++
        ('>' :: (T ++ '<' :: ['/', 'a', '>'])) := by
    simp
  have htwA : (' ' :: 'h' :: 'r' :: 'e' :: 'f' :: '=' :: '"' ::
      (U ++ '"' :: '>' :: (T ++ '<' :: ['/', 'a', '>']))).takeWhile
        (fun x => x ≠ '>') =
      ' ' :: 'h' :: 'r' :: 'e' :: 'f' :: '=' :: '"' :: (U ++ ['"']) := by
    rw [hsplit]
    refine takeWhile_chunk _ _ '>' _ ?_ (by decide)
    intro x hx
    simp only [List.mem_cons, List.mem_append, List.not_mem_nil, or_false] at hx
    rcases hx with rfl | rfl | rfl | rfl | rfl | rfl | rfl | hx | rfl
    · decide
    · decide
    · decide
    · decide
    · decide
    · decide
    · decide
    · exact decide_eq_true (hUg x hx)
    · decide
  have hwlen : (' ' :: 'h' :: 'r' :: 'e' :: 'f' :: '=' :: '"' ::
      (U ++ ['"'])).length = U.length + 8 := by
    simp
  have hcntU : U.countP (fun c => isQuote c) = 0 :=
    List.countP_eq_zero.mpr (fun c hc => by simpa using hUq c hc)
  have hcntT : T.countP (fun c => isQuote c) = 0 :=
    List.countP_eq_zero.mpr (fun c hc => by simpa using (hT c hc).2.2)
  have hcnt : (U ++ '"' :: '>' :: (T ++ '<' :: ['/', 'a', '>'])).countP
      (fun c => isQuote c) = 1 := by
    rw [List.countP_append, List.countP_cons, List.countP_cons,
      List.countP_append, hcntU, hcntT]
    decide
  have hdrop7 : (' ' :: 'h' :: 'r' :: 'e' :: 'f' :: '=' :: '"' ::
      (U ++ '"' :: '>' :: (T ++ '<' :: ['/', 'a', '>']))).drop 7 =
      U ++ '"' :: '>' :: (T ++ '<' :: ['/', 'a', '>']) := rfl
  have hfail : ∀ j, 2 ≤ j → j ≤ (U.length + 7) + 1 →
      parseAttrTail ['h', 'r', 'e', 'f']
        ((' ' :: 'h' :: 'r' :: 'e' :: 'f' :: '=' :: '"' ::
          (U ++ '"' :: '>' :: (T ++ '<' :: ['/', 'a', '>']))).drop j) = none := by
    intro j hj2 hjle
    by_cases hj7 : 7 ≤ j
    · have hdj : (' ' :: 'h' :: 'r' :: 'e' :: 'f' :: '=' :: '"' ::
          (U ++ '"' :: '>' :: (T ++ '<' :: ['/', 'a', '>']))).drop j =
          (U ++ '"' :: '>' :: (T ++ '<' :: ['/', 'a', '>'])).drop (j - 7) := by
        rw [← hdrop7, List.drop_drop]
        congr 1
        omega
      rw [hdj]
      refine parseAttrTail_none_of_quotes _ _ ?_
      refine le_trans (countP_le_of_suffix _ _ _ (List.drop_suffix _ _)) ?_
      exact le_of_eq hcnt
    · apply parseAttrTail_none_of_matchLit
      interval_cases j
      · rfl
      · rfl
      · rfl
      · rfl
      · rfl
  have hsA : attrSearch ['h', 'r', 'e', 'f']
      (' ' :: 'h' :: 'r' :: 'e' :: 'f' :: '=' :: '"' ::
        (U ++ '"' :: '>' :: (T ++ '<' :: ['/', 'a', '>']))) (U.length + 8) =
      some (U, T ++ '<' :: ['/', 'a', '>']) := by
    have h8 : U.length + 8 = (U.length + 7) + 1 := by omega
    rw [h8, attrSearch_to_one _ _ _ hfail]
    have h01 : (1 : Nat) = 0 + 1 := rfl
    rw [h01, attrSearch]
    have hd1 : (' ' :: 'h' :: 'r' :: 'e' :: 'f' :: '=' :: '"' ::
        (U ++ '"' :: '>' :: (T ++ '<' :: ['/', 'a', '>']))).drop (0 + 1) =
        'h' :: 'r' :: 'e' :: 'f' :: '=' :: '"' ::
          (U ++ '"' :: '>' :: (T ++ '<' :: ['/', 'a', '>'])) := rfl
    rw [hd1, parseAttrTail_href U (T ++ '<' :: ['/', 'a', '>']) hUq]
  have hlc : lazyCapture ['<', '/', 'a', '>'] false
      (T ++ '<' :: ['/', 'a', '>']) = some (T, []) :=
    lazyCapture_eval '<' ['/', 'a', '>'] T ('<' :: ['/', 'a', '>']) [] rfl
      (by simp) (fun c hc => ⟨(hT c hc).1, (hT c hc).2.1⟩)
  rw [hshape]
  have hlow : 'a'.toLower = 'a' := rfl
  simp only [mAnchor, hlow, eq_self_iff_true, if_true, htwA, hwlen, hsA, hlc]
  simp

/-- The anchor middle contains no less-than sign when the url and text do
not. -/
theorem anchorMid_no_lt (U T : Str) (hU : ∀ c ∈ U, ¬ c = '<')
    (hT : ∀ c ∈ T, ¬ c = '<') : ∀ c ∈ anchorMid U T, ¬ c = '<' := by
  intro c hc
  simp only [anchorMid, List.mem_cons, List.mem_append] at hc
  rcases hc with rfl | rfl | rfl | rfl | rfl | rfl | rfl | rfl | hc | rfl | rfl | hc
  · decide
  · decide
  · decide
  · decide
  · decide
  · decide
  · decide
  · decide
  · exact hU c hc
  · decide
  · decide
  · exact hT c hc

/-- The image middle contains no less-than sign when the alt text does
not. -/
theorem imgMid_no_lt (A : Str) (hA : ∀ c ∈ A, ¬ c = '<') :
    ∀ c ∈ imgMid A, ¬ c = '<' := by
  intro c hc
  simp only [imgMid, List.mem_cons, List.mem_append, List.not_mem_nil,
    or_false] at hc
  rcases hc with rfl | rfl | rfl | rfl | rfl | rfl | rfl | rfl | rfl | hc | rfl | rfl
  · decide
  · decide
  · decide
  · decide
  · decide
  · decide
  · decide
  · decide
  · decide
  · exact hA c hc
  · decide
  · decide

/-- A matcher that fires only at a less-than sign and fails at both
less-than positions of the anchor input leaves the anchor input
unchanged. -/
theorem runScan_id_anchor (m : Matcher) (U T : Str)
    (hmh : ∀ (b : Bool) (c : Char) (t : Str), ¬ c = '<' → m b (c :: t) = none)
    (hU : ∀ c ∈ U, ¬ c = '<') (hT : ∀ c ∈ T, ¬ c = '<')
    (hm1 : ∀ b, m b (anchorInput U T) = none)
    (hm2 : ∀ b, m b ('<' :: ['/', 'a', '>']) = none) :
    runScan m (anchorInput U T) = anchorInput U T :=
  runScan_id_two_lt m hmh (anchorMid U T) ['/', 'a', '>']
    (anchorMid_no_lt U T hU hT) (by decide) (fun b => hm1 b) hm2

/-- A matcher that fires only at a less-than sign and fails at the head of
the image input leaves the image input unchanged. -/
theorem runScan_id_img (m : Matcher) (A : Str)
    (hmh : ∀ (b : Bool) (c : Char) (t : Str), ¬ c = '<' → m b (c :: t) = none)
    (hA : ∀ c ∈ A, ¬ c = '<')
    (hm1 : ∀ b, m b (imgInput A) = none) :
    runScan m (imgInput A) = imgInput A :=
  runScan_id_one_lt m hmh (imgMid A) (imgMid_no_lt A hA) (fun b => hm1 b)

/-- A matcher that fires only at a less-than sign leaves a string without
less-than signs unchanged. -/
theorem runScan_id_no_lt (m : Matcher)
    (hm0 : ∀ b, m b [] = none)
    (hmh : ∀ (b : Bool) (c : Char) (t : Str), ¬ c = '<' → m b (c :: t) = none)
    (l : Str) (hl : ∀ c ∈ l, ¬ c = '<') :
    runScan m l = l := by
  unfold runScan
  exact replScan_id_head m (fun c => c == '<') hm0
    (fun b c t hcb => hmh b c t (by simpa using hcb)) _ _ _
    (fun c hc => by simpa using hl c hc)

/-- Evaluation of the image matcher at a well-formed img element whose alt
value has no quotes and no greater-than sign: it fires, produces the
bracketed marker with the alt text, and consumes the whole element. -/
theorem mImgAlt_eval (A : Str) (b : Bool)
    (hAq : ∀ c ∈ A, (!isQuote c) = true) (hAg : ∀ c ∈ A, ¬ c = '>') :
    mImgAlt b (imgInput A) =
      some ('[' :: '图' :: '片' :: ':' :: ' ' :: A ++ [']'], (imgInput A).length) := by
  have hsplit : (' ' :: 'a' :: 'l' :: 't' :: '=' :: '"' :: (A ++ ['"', '>'])) =
      (' ' :: 'a' :: 'l' :: 't' :: '=' :: '"' :: (A ++ ['"'])) ++ ('>' :: []) := by
    simp
  have htwA : (' ' :: 'a' :: 'l' :: 't' :: '=' :: '"' ::
      (A ++ ['"', '>'])).takeWhile (fun x => x ≠ '>') =
      ' ' :: 'a' :: 'l' :: 't' :: '=' :: '"' :: (A ++ ['"']) := by
    rw [hsplit]
    refine takeWhile_chunk _ _ '>' _ ?_ (by decide)
    intro x hx
    simp only [List.mem_cons, List.mem_append, List.not_mem_nil, or_false] at hx
    rcases hx with rfl | rfl | rfl | rfl | rfl | rfl | hx | rfl
    · decide
    · decide
    · decide
    · decide
    · decide
    · decide
    · exact decide_eq_true (hAg x hx)
    · decide
  have hwlen : (' ' :: 'a' :: 'l' :: 't' :: '=' :: '"' ::
      (A ++ ['"'])).length = A.length + 7 := by
    simp
  have hcntA : A.countP (fun c => isQuote c) = 0 :=
    List.countP_eq_zero.mpr (fun c hc => by simpa using hAq c hc)
  have hcnt : (A ++ ['"', '>']).countP (fun c => isQuote c) = 1 := by
    rw [List.countP_append, hcntA]
    decide
  have hdrop6 : (' ' :: 'a' :: 'l' :: 't' :: '=' :: '"' ::
      (A ++ ['"', '>'])).drop 6 = A ++ ['"', '>'] := rfl
  have hfail : ∀ j, 2 ≤ j → j ≤ (A.length + 6) + 1 →
      parseAttrTail ['a', 'l', 't']
        ((' ' :: 'a' :: 'l' :: 't' :: '=' :: '"' :: (A ++ ['"', '>'])).drop j) =
        none := by
    intro j hj2 hjle
    by_cases hj6 : 6 ≤ j
    · have hdj : (' ' :: 'a' :: 'l' :: 't' :: '=' :: '"' ::
          (A ++ ['"', '>'])).drop j = (A ++ ['"', '>']).drop (j - 6) := by
        rw [← hdrop6, List.drop_drop]
        congr 1
        omega
      rw [hdj]
      refine parseAttrTail_none_of_quotes _ _ ?_
      refine le_trans (countP_le_of_suffix _ _ _ (List.drop_suffix _ _)) ?_
      exact le_of_eq hcnt
    · apply parseAttrTail_none_of_matchLit
      have hj5 : j ≤ 5 := by omega
      interval_cases j
      · rfl
      · rfl
      · rfl
      · rfl
  have hsA : attrSearch ['a', 'l', 't']
      (' ' :: 'a' :: 'l' :: 't' :: '=' :: '"' :: (A ++ ['"', '>'])) (A.length + 7) =
      some (A, []) := by
    have h7 : A.length + 7 = (A.length + 6) + 1 := by omega
    rw [h7, attrSearch_to_one _ _ _ hfail]
    have h01 : (1 : Nat) = 0 + 1 := rfl
    rw [h01, attrSearch]
    have hd1 : (' ' :: 'a' :: 'l' :: 't' :: '=' :: '"' ::
        (A ++ ['"', '>'])).drop (0 + 1) =
        'a' :: 'l' :: 't' :: '=' :: '"' :: (A ++ ['"', '>']) := rfl
    rw [hd1, parseAttrTail_alt A hAq]
  have hml : matchLitCI ['i', 'm', 'g']
      ('i' :: 'm' :: 'g' :: (' ' :: 'a' :: 'l' :: 't' :: '=' :: '"' ::
        (A ++ ['"', '>']))) =
      some (' ' :: 'a' :: 'l' :: 't' :: '=' :: '"' :: (A ++ ['"', '>'])) := rfl
  have hshape : imgInput A =
      '<' :: ('i' :: 'm' :: 'g' :: (' ' :: 'a' :: 'l' :: 't' :: '=' :: '"' ::
        (A ++ ['"', '>']))) := rfl
  rw [hshape]
  simp only [mImgAlt, hml, htwA, hwlen, hsA]
  simp

/-- The anchor scan over the anchor input produces exactly the text
followed by the parenthesised url. -/
theorem runScan_mAnchor (U T : Str)
    (hUq : ∀ c ∈ U, (!isQuote c) = true) (hUg : ∀ c ∈ U, ¬ c = '>')
    (hT : ∀ c ∈ T, isTerm c = false ∧ ¬ c.toLower = '<' ∧ (!isQuote c) = true) :
    runScan mAnchor (anchorInput U T) = T ++ ' ' :: '(' :: U ++ [')'] := by
  have hm := mAnchor_eval U T true hUq hUg hT
  have hcons : anchorInput U T =
      '<' :: (anchorMid U T ++ '<' :: ['/', 'a', '>']) := rfl
  unfold runScan
  rw [hcons] at hm ⊢
  have hlen : ('<' :: (anchorMid U T ++ '<' :: ['/', 'a', '>'])).length + 1 =
      (('<' :: (anchorMid U T ++ '<' :: ['/', 'a', '>'])).length) + 1 := rfl
  rw [replScan_step_some mAnchor _ true '<' _ _ _ hm]
  simp [List.drop_length, replScan_nil]

/-- The image scan over the image input produces exactly the bracketed
marker with the alt text. -/
theorem runScan_mImgAlt (A : Str)
    (hAq : ∀ c ∈ A, (!isQuote c) = true) (hAg : ∀ c ∈ A, ¬ c = '>') :
    runScan mImgAlt (imgInput A) = '[' :: '图' :: '片' :: ':' :: ' ' :: A ++ [']'] := by
  have hm := mImgAlt_eval A true hAq hAg
  have hcons : imgInput A = '<' :: imgMid A := rfl
  unfold runScan
  rw [hcons] at hm ⊢
  rw [replScan_step_some mImgAlt _ true '<' _ _ _ hm]
  simp [List.drop_length, replScan_nil]

/-- Collapsing spaces over a single space followed by a non-space keeps the
space. -/
theorem collapseSpTab_space_cons (X : Str)
    (hhd : ∀ c, X.head? = some c → spTab c = false) :
    collapseSpTab (' ' :: X) = ' ' :: collapseSpTab X := by
  cases X with
  | nil => rfl
  | cons c2 r =>
    have hc2 : spTab c2 = false := hhd c2 rfl
    rw [collapseSpTab]
    simp [hc2]

set_option maxHeartbeats 1000000 in
/-- The whole HTML-to-text conversion on a well-formed anchor element with
benign url and text characters: the anchor renders as the text, a space,
and the url in parentheses. -/
theorem stripHtmlTags_anchor (U T : Str)
    (hUq : ∀ c ∈ U, (!isQuote c) = true)
    (hUg : ∀ c ∈ U, ¬ c = '>')
    (hUl : ∀ c ∈ U, ¬ c = '<')
    (hUs : ∀ c ∈ U, spTab c = false)
    (hUn : ∀ c ∈ U, isTerm c = false)
    (hUa : ∀ c ∈ U, ¬ c = '&')
    (hTt : ∀ c ∈ T, isTerm c = false)
    (hTl : ∀ c ∈ T, ¬ c.toLower = '<')
    (hTq : ∀ c ∈ T, (!isQuote c) = true)
    (hTa : ∀ c ∈ T, ¬ c = '&')
    (hTc : collapseSpTab T = T)
    (hTlast : ∀ c, T.getLast? = some c → spTab c = false)
    (hThead : ∀ c, T.head? = some c → jsWs c = false)
    (hTne : T ≠ []) :
    stripHtmlTags (anchorInput U T) = T ++ ' ' :: '(' :: U ++ [')'] := by
  have hTlt : ∀ c ∈ T, ¬ c = '<' := fun c hc hcc => hTl c hc (by rw [hcc]; rfl)
  have hfold : blockTags.foldl
      (fun t tag =>
        runScan (mOpenTag tag (if tag = ['l', 'i'] then '\n' :: '•' :: [' '] else ['\n']))
          (runScan (mCloseTag tag ['\n', '\n']) t))
      (anchorInput U T) = anchorInput U T := by
    apply foldl_fixed
    intro tag htag
    have hc : runScan (mCloseTag tag ['\n', '\n']) (anchorInput U T) =
        anchorInput U T :=
      runScan_id_anchor _ U T (fun b c t h => mCloseTag_none_head _ _ b c t h)
        hUl hTlt
        (fun b => mCloseTag_none_snd tag _ b '<' 'a' _ (by decide))
        (fun b => mCloseTag_none_tag tag _ b _ (blocks_none_close tag htag))
    rw [hc]
    exact runScan_id_anchor _ U T (fun b c t h => mOpenTag_none_head _ _ b c t h)
      hUl hTlt
      (fun b => mOpenTag_none_tag _ _ b '<' _ (blocks_none_anchor _ tag htag))
      (fun b => mOpenTag_none_tag _ _ b '<' _ (blocks_none_slash _ tag htag))
  have hbr : runScan (mBrHr ['b', 'r'] ['\n']) (anchorInput U T) = anchorInput U T :=
    runScan_id_anchor _ U T (fun b c t h => mBrHr_none_head _ _ b c t h) hUl hTlt
      (fun b => rfl) (fun b => rfl)
  have hhr : runScan (mBrHr ['h', 'r'] ('\n' :: '-' :: '-' :: '-' :: ['\n']))
      (anchorInput U T) = anchorInput U T :=
    runScan_id_anchor _ U T (fun b c t h => mBrHr_none_head _ _ b c t h) hUl hTlt
      (fun b => rfl) (fun b => rfl)
  have htr : runScan (mExactCI ('<' :: '/' :: 't' :: 'r' :: ['>']) ['\n'])
      (anchorInput U T) = anchorInput U T :=
    runScan_id_anchor _ U T
      (fun b c t h => mExactCI_none_head '<' _ _ b c t (by decide) h) hUl hTlt
      (fun b => rfl) (fun b => rfl)
  have htd : runScan (mExactCI ('<' :: '/' :: 't' :: 'd' :: ['>']) ['\t'])
      (anchorInput U T) = anchorInput U T :=
    runScan_id_anchor _ U T
      (fun b c t h => mExactCI_none_head '<' _ _ b c t (by decide) h) hUl hTlt
      (fun b => rfl) (fun b => rfl)
  have hth : runScan (mExactCI ('<' :: '/' :: 't' :: 'h' :: ['>']) ['\t'])
      (anchorInput U T) = anchorInput U T :=
    runScan_id_anchor _ U T
      (fun b c t h => mExactCI_none_head '<' _ _ b c t (by decide) h) hUl hTlt
      (fun b => rfl) (fun b => rfl)
  have htdth : runScan mTdThOpen (anchorInput U T) = anchorInput U T :=
    runScan_id_anchor _ U T (fun b c t h => mTdThOpen_none_head b c t h) hUl hTlt
      (fun b => rfl) (fun b => rfl)
  have htable : runScan (mSlashOptTag ['t', 'a', 'b', 'l', 'e'] ['\n'])
      (anchorInput U T) = anchorInput U T :=
    runScan_id_anchor _ U T (fun b c t h => mSlashOptTag_none_head _ _ b c t h)
      hUl hTlt (fun b => rfl) (fun b => rfl)
  have htbody : runScan (mSlashOptTag ['t', 'b', 'o', 'd', 'y'] [])
      (anchorInput U T) = anchorInput U T :=
    runScan_id_anchor _ U T (fun b c t h => mSlashOptTag_none_head _ _ b c t h)
      hUl hTlt (fun b => rfl) (fun b => rfl)
  have hthead2 : runScan (mSlashOptTag ['t', 'h', 'e', 'a', 'd'] [])
      (anchorInput U T) = anchorInput U T :=
    runScan_id_anchor _ U T (fun b c t h => mSlashOptTag_none_head _ _ b c t h)
      hUl hTlt (fun b => rfl) (fun b => rfl)
  have htr2 : runScan (mOpenTag ['t', 'r'] []) (anchorInput U T) = anchorInput U T :=
    runScan_id_anchor _ U T (fun b c t h => mOpenTag_none_head _ _ b c t h)
      hUl hTlt (fun b => rfl) (fun b => rfl)
  have hanchor : runScan mAnchor (anchorInput U T) = T ++ ' ' :: '(' :: U ++ [')'] :=
    runScan_mAnchor U T hUq hUg (fun c hc => ⟨hTt c hc, hTl c hc, hTq c hc⟩)
  have hmem : ∀ c ∈ T ++ ' ' :: '(' :: U ++ [')'],
      c ∈ T ∨ c = ' ' ∨ c = '(' ∨ c ∈ U ∨ c = ')' := by
    intro c hc
    rcases List.mem_append.mp hc with h | h
    · rcases List.mem_append.mp h with h1 | h1
      · exact Or.inl h1
      · rw [List.mem_cons] at h1
        rcases h1 with rfl | h1
        · exact Or.inr (Or.inl rfl)
        · rw [List.mem_cons] at h1
          rcases h1 with rfl | h1
          · exact Or.inr (Or.inr (Or.inl rfl))
          · exact Or.inr (Or.inr (Or.inr (Or.inl h1)))
    · rw [List.mem_singleton] at h
      exact Or.inr (Or.inr (Or.inr (Or.inr h)))
  have hS1lt : ∀ c ∈ T ++ ' ' :: '(' :: U ++ [')'], ¬ c = '<' := by
    intro c hc
    rcases hmem c hc with h | rfl | rfl | h | rfl
    · exact hTlt c h
    · decide
    · decide
    · exact hUl c h
    · decide
  have hS1amp : ∀ c ∈ T ++ ' ' :: '(' :: U ++ [')'], ¬ c = '&' := by
    intro c hc
    rcases hmem c hc with h | rfl | rfl | h | rfl
    · exact hTa c h
    · decide
    · decide
    · exact hUa c h
    · decide
  have hS1nl : ∀ c ∈ T ++ ' ' :: '(' :: U ++ [')'], ¬ c = '\n' := by
    intro c hc
    rcases hmem c hc with h | rfl | rfl | h | rfl
    · intro hcc
      have hb := hTt c h
      rw [hcc] at hb
      exact absurd hb (by decide)
    · decide
    · decide
    · intro hcc
      have hb := hUn c h
      rw [hcc] at hb
      exact absurd hb (by decide)
    · decide
  have hnmem : '\n' ∉ T ++ ' ' :: '(' :: U ++ [')'] :=
    fun hm => hS1nl '\n' hm rfl
  have himg1 : runScan mImgAlt (T ++ ' ' :: '(' :: U ++ [')']) =
      T ++ ' ' :: '(' :: U ++ [')'] :=
    runScan_id_no_lt mImgAlt (fun b => rfl)
      (fun b c t h => mImgAlt_none_head b c t h) _ hS1lt
  have himg2 : runScan (mOpenTag ['i', 'm', 'g'] ('[' :: '图' :: '片' :: [']']))
      (T ++ ' ' :: '(' :: U ++ [')']) = T ++ ' ' :: '(' :: U ++ [')'] :=
    runScan_id_no_lt _ (fun b => rfl)
      (fun b c t h => mOpenTag_none_head _ _ b c t h) _ hS1lt
  have hscript : runScan (mLazyBlock ['s', 'c', 'r', 'i', 'p', 't'])
      (T ++ ' ' :: '(' :: U ++ [')']) = T ++ ' ' :: '(' :: U ++ [')'] :=
    runScan_id_no_lt _ (fun b => rfl)
      (fun b c t h => mLazyBlock_none_head _ b c t h) _ hS1lt
  have hstyle : runScan (mLazyBlock ['s', 't', 'y', 'l', 'e'])
      (T ++ ' ' :: '(' :: U ++ [')']) = T ++ ' ' :: '(' :: U ++ [')'] :=
    runScan_id_no_lt _ (fun b => rfl)
      (fun b c t h => mLazyBlock_none_head _ b c t h) _ hS1lt
  have hany : runScan mAnyTag (T ++ ' ' :: '(' :: U ++ [')']) =
      T ++ ' ' :: '(' :: U ++ [')'] :=
    runScan_id_no_lt _ (fun b => rfl)
      (fun b c t h => mAnyTag_none_head b c t h) _ hS1lt
  have hdec : decodeHtmlEntities (T ++ ' ' :: '(' :: U ++ [')']) =
      T ++ ' ' :: '(' :: U ++ [')'] :=
    decodeHtmlEntities_id _ hS1amp
  have hnospt : ∀ c ∈ '(' :: (U ++ [')']), spTab c = false := by
    intro c hc
    rw [List.mem_cons] at hc
    rcases hc with rfl | hc
    · decide
    · rcases List.mem_append.mp hc with h | h
      · exact hUs c h
      · rw [List.mem_singleton] at h
        rw [h]
        decide
  have hcoll : collapseSpTab (T ++ ' ' :: '(' :: U ++ [')']) =
      T ++ ' ' :: '(' :: U ++ [')'] := by
    have he : T ++ ' ' :: '(' :: U ++ [')'] = T ++ (' ' :: '(' :: (U ++ [')'])) := by
      simp
    rw [he, collapseSpTab_append T hTlast, hTc,
      collapseSpTab_space_cons _ (fun c hc => by cases hc; decide),
      collapseSpTab_id_noSpTab _ hnospt]
  have hdrop1 : dropAfterNl false (T ++ ' ' :: '(' :: U ++ [')']) =
      T ++ ' ' :: '(' :: U ++ [')'] :=
    dropAfterNl_id _ hnmem
  have hdrop2 : dropBeforeNl [] (T ++ ' ' :: '(' :: U ++ [')']) =
      T ++ ' ' :: '(' :: U ++ [')'] := by
    rw [dropBeforeNl_no_nl _ hnmem []]
    simp
  have hnl3 : runScan mNl3 (T ++ ' ' :: '(' :: U ++ [')']) =
      T ++ ' ' :: '(' :: U ++ [')'] := by
    unfold runScan
    exact replScan_id_head mNl3 (fun c => c == '\n') (fun b => rfl)
      (fun b c t hcb => mNl3_none_head b c t (by simpa using hcb)) _ _ _
      (fun c hc => by simpa using hS1nl c hc)
  have htrim : jsTrim (T ++ ' ' :: '(' :: U ++ [')']) =
      T ++ ' ' :: '(' :: U ++ [')'] := by
    refine jsTrim_eq_self _ ?_ ?_
    · cases T with
      | nil => exact absurd rfl hTne
      | cons t0 ts =>
        intro c hc
        cases hc
        exact hThead t0 rfl
    · intro c hc
      have hrw : (T ++ ' ' :: '(' :: U ++ [')']).getLast? = some ')' :=
        List.getLast?_concat _
      rw [hrw] at hc
      cases hc
      decide
  have hne : anchorInput U T ≠ [] := by simp [anchorInput]
  unfold stripHtmlTags
  rw [if_neg hne]
  simp only [hfold, hbr, hhr, htr, htd, hth, htdth, htable, htbody, hthead2,
    htr2, hanchor, himg1, himg2, hscript, hstyle, hany, hdec, hcoll, hdrop1,
    hdrop2, hnl3, htrim]

set_option maxHeartbeats 1000000 in
/-- The whole HTML-to-text conversion on a well-formed img element with a
benign alt value: the image renders as the bracketed marker with the alt
text after the Chinese word for picture. -/
theorem stripHtmlTags_img (A : Str)
    (hAq : ∀ c ∈ A, (!isQuote c) = true)
    (hAg : ∀ c ∈ A, ¬ c = '>')
    (hAl : ∀ c ∈ A, ¬ c = '<')
    (hAn : ∀ c ∈ A, isTerm c = false)
    (hAa : ∀ c ∈ A, ¬ c = '&')
    (hAc : collapseSpTab A = A)
    (hAlast : ∀ c, A.getLast? = some c → spTab c = false)
    (hAhead : ∀ c, A.head? = some c → spTab c = false) :
    stripHtmlTags (imgInput A) = '[' :: '图' :: '片' :: ':' :: ' ' :: A ++ [']'] := by
  have hfold : blockTags.foldl
      (fun t tag =>
        runScan (mOpenTag tag (if tag = ['l', 'i'] then '\n' :: '•' :: [' '] else ['\n']))
          (runScan (mCloseTag tag ['\n', '\n']) t))
      (imgInput A) = imgInput A := by
    apply foldl_fixed
    intro tag htag
    have hc : runScan (mCloseTag tag ['\n', '\n']) (imgInput A) = imgInput A :=
      runScan_id_img _ A (fun b c t h => mCloseTag_none_head _ _ b c t h) hAl
        (fun b => mCloseTag_none_snd tag _ b '<' 'i' _ (by decide))
    rw [hc]
    exact runScan_id_img _ A (fun b c t h => mOpenTag_none_head _ _ b c t h) hAl
      (fun b => mOpenTag_none_tag _ _ b '<' _ (blocks_none_img _ tag htag))
  have hbr : runScan (mBrHr ['b', 'r'] ['\n']) (imgInput A) = imgInput A :=
    runScan_id_img _ A (fun b c t h => mBrHr_none_head _ _ b c t h) hAl
      (fun b => rfl)
  have hhr : runScan (mBrHr ['h', 'r'] ('\n' :: '-' :: '-' :: '-' :: ['\n']))
      (imgInput A) = imgInput A :=
    runScan_id_img _ A (fun b c t h => mBrHr_none_head _ _ b c t h) hAl
      (fun b => rfl)
  have htr : runScan (mExactCI ('<' :: '/' :: 't' :: 'r' :: ['>']) ['\n'])
      (imgInput A) = imgInput A :=
    runScan_id_img _ A
      (fun b c t h => mExactCI_none_head '<' _ _ b c t (by decide) h) hAl
      (fun b => rfl)
  have htd : runScan (mExactCI ('<' :: '/' :: 't' :: 'd' :: ['>']) ['\t'])
      (imgInput A) = imgInput A :=
    runScan_id_img _ A
      (fun b c t h => mExactCI_none_head '<' _ _ b c t (by decide) h) hAl
      (fun b => rfl)
  have hth : runScan (mExactCI ('<' :: '/' :: 't' :: 'h' :: ['>']) ['\t'])
      (imgInput A) = imgInput A :=
    runScan_id_img _ A
      (fun b c t h => mExactCI_none_head '<' _ _ b c t (by decide) h) hAl
      (fun b => rfl)
  have htdth : runScan mTdThOpen (imgInput A) = imgInput A :=
    runScan_id_img _ A (fun b c t h => mTdThOpen_none_head b c t h) hAl
      (fun b => rfl)
  have htable : runScan (mSlashOptTag ['t', 'a', 'b', 'l', 'e'] ['\n'])
      (imgInput A) = imgInput A :=
    runScan_id_img _ A (fun b c t h => mSlashOptTag_none_head _ _ b c t h) hAl
      (fun b => rfl)
  have htbody : runScan (mSlashOptTag ['t', 'b', 'o', 'd', 'y'] [])
      (imgInput A) = imgInput A :=
    runScan_id_img _ A (fun b c t h => mSlashOptTag_none_head _ _ b c t h) hAl
      (fun b => rfl)
  have hthead2 : runScan (mSlashOptTag ['t', 'h', 'e', 'a', 'd'] [])
      (imgInput A) = imgInput A :=
    runScan_id_img _ A (fun b c t h => mSlashOptTag_none_head _ _ b c t h) hAl
      (fun b => rfl)
  have htr2 : runScan (mOpenTag ['t', 'r'] []) (imgInput A) = imgInput A :=
    runScan_id_img _ A (fun b c t h => mOpenTag_none_head _ _ b c t h) hAl
      (fun b => rfl)
  have hanchor : runScan mAnchor (imgInput A) = imgInput A :=
    runScan_id_img _ A (fun b c t h => mAnchor_none_head b c t h) hAl
      (fun b => rfl)
  have himg : runScan mImgAlt (imgInput A) =
      '[' :: '图' :: '片' :: ':' :: ' ' :: A ++ [']'] :=
    runScan_mImgAlt A hAq hAg
  have hmem : ∀ c ∈ '[' :: '图' :: '片' :: ':' :: ' ' :: A ++ [']'],
      c = '[' ∨ c = '图' ∨ c = '片' ∨ c = ':' ∨ c = ' ' ∨ c ∈ A ∨ c = ']' := by
    intro c hc
    rcases List.mem_append.mp hc with h | h
    · rw [List.mem_cons] at h
      rcases h with rfl | h
      · exact Or.inl rfl
      · rw [List.mem_cons] at h
        rcases h with rfl | h
        · exact Or.inr (Or.inl rfl)
        · rw [List.mem_cons] at h
          rcases h with rfl | h
          · exact Or.inr (Or.inr (Or.inl rfl))
          · rw [List.mem_cons] at h
            rcases h with rfl | h
            · exact Or.inr (Or.inr (Or.inr (Or.inl rfl)))
            · rw [List.mem_cons] at h
              rcases h with rfl | h
              · exact Or.inr (Or.inr (Or.inr (Or.inr (Or.inl rfl))))
              · exact Or.inr (Or.inr (Or.inr (Or.inr (Or.inr (Or.inl h)))))
    · rw [List.mem_singleton] at h
      exact Or.inr (Or.inr (Or.inr (Or.inr (Or.inr (Or.inr h)))))
  have hS2lt : ∀ c ∈ '[' :: '图' :: '片' :: ':' :: ' ' :: A ++ [']'], ¬ c = '<' := by
    intro c hc
    rcases hmem c hc with rfl | rfl | rfl | rfl | rfl | h | rfl
    · decide
    · decide
    · decide
    · decide
    · decide
    · exact hAl c h
    · decide
  have hS2amp : ∀ c ∈ '[' :: '图' :: '片' :: ':' :: ' ' :: A ++ [']'], ¬ c = '&' := by
    intro c hc
    rcases hmem c hc with rfl | rfl | rfl | rfl | rfl | h | rfl
    · decide
    · decide
    · decide
    · decide
    · decide
    · exact hAa c h
    · decide
  have hS2nl : ∀ c ∈ '[' :: '图' :: '片' :: ':' :: ' ' :: A ++ [']'], ¬ c = '\n' := by
    intro c hc
    rcases hmem c hc with rfl | rfl | rfl | rfl | rfl | h | rfl
    · decide
    · decide
    · decide
    · decide
    · decide
    · intro hcc
      have hb := hAn c h
      rw [hcc] at hb
      exact absurd hb (by decide)
    · decide
  have hnmem : '\n' ∉ '[' :: '图' :: '片' :: ':' :: ' ' :: A ++ [']'] :=
    fun hm => hS2nl '\n' hm rfl
  have himg2 : runScan (mOpenTag ['i', 'm', 'g'] ('[' :: '图' :: '片' :: [']']))
      ('[' :: '图' :: '片' :: ':' :: ' ' :: A ++ [']']) =
      '[' :: '图' :: '片' :: ':' :: ' ' :: A ++ [']'] :=
    runScan_id_no_lt _ (fun b => rfl)
      (fun b c t h => mOpenTag_none_head _ _ b c t h) _ hS2lt
  have hscript : runScan (mLazyBlock ['s', 'c', 'r', 'i', 'p', 't'])
      ('[' :: '图' :: '片' :: ':' :: ' ' :: A ++ [']']) =
      '[' :: '图' :: '片' :: ':' :: ' ' :: A ++ [']'] :=
    runScan_id_no_lt _ (fun b => rfl)
      (fun b c t h => mLazyBlock_none_head _ b c t h) _ hS2lt
  have hstyle : runScan (mLazyBlock ['s', 't', 'y', 'l', 'e'])
      ('[' :: '图' :: '片' :: ':' :: ' ' :: A ++ [']']) =
      '[' :: '图' :: '片' :: ':' :: ' ' :: A ++ [']'] :=
    runScan_id_no_lt _ (fun b => rfl)
      (fun b c t h => mLazyBlock_none_head _ b c t h) _ hS2lt
  have hany : runScan mAnyTag ('[' :: '图' :: '片' :: ':' :: ' ' :: A ++ [']']) =
      '[' :: '图' :: '片' :: ':' :: ' ' :: A ++ [']'] :=
    runScan_id_no_lt _ (fun b => rfl)
      (fun b c t h => mAnyTag_none_head b c t h) _ hS2lt
  have hdec : decodeHtmlEntities ('[' :: '图' :: '片' :: ':' :: ' ' :: A ++ [']']) =
      '[' :: '图' :: '片' :: ':' :: ' ' :: A ++ [']'] :=
    decodeHtmlEntities_id _ hS2amp
  have hAheadApp : ∀ c, (A ++ [']']).head? = some c → spTab c = false := by
    cases A with
    | nil =>
      intro c hc
      cases hc
      decide
    | cons a as =>
      intro c hc
      cases hc
      exact hAhead a rfl
  have hcoll : collapseSpTab ('[' :: '图' :: '片' :: ':' :: ' ' :: A ++ [']']) =
      '[' :: '图' :: '片' :: ':' :: ' ' :: A ++ [']'] := by
    have he : '[' :: '图' :: '片' :: ':' :: ' ' :: A ++ [']'] =
        ('[' :: '图' :: '片' :: [':']) ++ (' ' :: (A ++ [']'])) := by
      simp
    rw [he, collapseSpTab_append _ (fun c hc => by cases hc; decide),
      collapseSpTab_space_cons _ hAheadApp,
      collapseSpTab_append A hAlast, hAc]
    rfl
  have hdrop1 : dropAfterNl false ('[' :: '图' :: '片' :: ':' :: ' ' :: A ++ [']']) =
      '[' :: '图' :: '片' :: ':' :: ' ' :: A ++ [']'] :=
    dropAfterNl_id _ hnmem
  have hdrop2 : dropBeforeNl [] ('[' :: '图' :: '片' :: ':' :: ' ' :: A ++ [']']) =
      '[' :: '图' :: '片' :: ':' :: ' ' :: A ++ [']'] := by
    rw [dropBeforeNl_no_nl _ hnmem []]
    simp
  have hnl3 : runScan mNl3 ('[' :: '图' :: '片' :: ':' :: ' ' :: A ++ [']']) =
      '[' :: '图' :: '片' :: ':' :: ' ' :: A ++ [']'] := by
    unfold runScan
    exact replScan_id_head mNl3 (fun c => c == '\n') (fun b => rfl)
      (fun b c t hcb => mNl3_none_head b c t (by simpa using hcb)) _ _ _
      (fun c hc => by simpa using hS2nl c hc)
  have htrim : jsTrim ('[' :: '图' :: '片' :: ':' :: ' ' :: A ++ [']']) =
      '[' :: '图' :: '片' :: ':' :: ' ' :: A ++ [']'] := by
    refine jsTrim_eq_self _ ?_ ?_
    · intro c hc
      cases hc
      decide
    · intro c hc
      have hrw : ('[' :: '图' :: '片' :: ':' :: ' ' :: A ++ [']']).getLast? =
          some ']' := List.getLast?_concat _
      rw [hrw] at hc
      cases hc
      decide
  have hne : imgInput A ≠ [] := by simp [imgInput, imgMid]
  unfold stripHtmlTags
  rw [if_neg hne]
  simp only [hfold, hbr, hhr, htr, htd, hth, htdth, htable, htbody, hthead2,
    htr2, hanchor, himg, himg2, hscript, hstyle, hany, hdec, hcoll, hdrop1,
    hdrop2, hnl3, htrim]

/-- Claim C5 (amended): in the HTML-to-text conversion, an anchor element
with a double-quoted url and link text over benign characters renders as
the text followed by a space and the url in parentheses; an img element
with a double-quoted alt value over benign characters renders as the
bracketed image marker — written with the Chinese word for picture, not
the English word — followed by the alt text; and an img element without an
alt attribute renders as the bare bracketed marker. -/
theorem c5_anchor_and_image_rendering (U T A : Str)
    (hU : ∀ c ∈ U, (!isQuote c) = true ∧ ¬ c = '>' ∧ ¬ c = '<' ∧
      spTab c = false ∧ isTerm c = false ∧ ¬ c = '&')
    (hT : ∀ c ∈ T, isTerm c = false ∧ ¬ c.toLower = '<' ∧ (!isQuote c) = true ∧
      ¬ c = '&')
    (hTc : collapseSpTab T = T)
    (hTlast : ∀ c, T.getLast? = some c → spTab c = false)
    (hThead : ∀ c, T.head? = some c → jsWs c = false)
    (hTne : T ≠ [])
    (hA : ∀ c ∈ A, (!isQuote c) = true ∧ ¬ c = '>' ∧ ¬ c = '<' ∧
      isTerm c = false ∧ ¬ c = '&')
    (hAc : collapseSpTab A = A)
    (hAlast : ∀ c, A.getLast? = some c → spTab c = false)
    (hAhead : ∀ c, A.head? = some c → spTab c = false) :
    stripHtmlTags (anchorInput U T) = T ++ ' ' :: '(' :: U ++ [')'] ∧
    stripHtmlTags (imgInput A) =
      '[' :: '图' :: '片' :: ':' :: ' ' :: A ++ [']'] ∧
    stripHtmlTags (("<img src=\"a.png\">").toList) = ("[图片]").toList :=
  ⟨stripHtmlTags_anchor U T (fun c hc => (hU c hc).1) (fun c hc => (hU c hc).2.1)
    (fun c hc => (hU c hc).2.2.1) (fun c hc => (hU c hc).2.2.2.1)
    (fun c hc => (hU c hc).2.2.2.2.1) (fun c hc => (hU c hc).2.2.2.2.2)
    (fun c hc => (hT c hc).1) (fun c hc => (hT c hc).2.1)
    (fun c hc => (hT c hc).2.2.1) (fun c hc => (hT c hc).2.2.2)
    hTc hTlast hThead hTne,
   stripHtmlTags_img A (fun c hc => (hA c hc).1) (fun c hc => (hA c hc).2.1)
    (fun c hc => (hA c hc).2.2.1) (fun c hc => (hA c hc).2.2.2.1)
    (fun c hc => (hA c hc).2.2.2.2) hAc hAlast hAhead,
   by decide⟩

/-- Witness for the amended Claim C5 theorem at a concrete anchor and
image. -/
theorem c5_anchor_and_image_rendering_witness :
    stripHtmlTags (anchorInput ("http://x.com").toList ("Click here").toList) =
      ("Click here").toList ++ ' ' :: '(' :: ("http://x.com").toList ++ [')'] ∧
    stripHtmlTags (imgInput ("a logo").toList) =
      '[' :: '图' :: '片' :: ':' :: ' ' :: ("a logo").toList ++ [']'] ∧
    stripHtmlTags (("<img src=\"a.png\">").toList) = ("[图片]").toList :=
  c5_anchor_and_image_rendering ("http://x.com").toList ("Click here").toList
    ("a logo").toList (by decide) (by decide) (by decide)
    (by intro c hc; cases hc; decide) (by intro c hc; cases hc; decide)
    (by decide) (by decide) (by decide)
    (by intro c hc; cases hc; decide) (by intro c hc; cases hc; decide)

/-! ## Claim C2: idempotence infrastructure -/

/-- The scheme match fails when the http literal fails. -/
theorem matchScheme_none (l : Str)
    (h : matchLit ['h', 't', 't', 'p'] l = none) : matchScheme l = none := by
  unfold matchScheme
  rw [h]

/-- The bracket-URL matcher cannot fire on a string none of whose suffixes
starts with the http literal. -/
theorem mBracketUrl_none_nohttp (b : Bool) (t : Str)
    (h : ∀ s, s <:+ t → matchLit ['h', 't', 't', 'p'] s = none) :
    mBracketUrl b t = none := by
  unfold mBracketUrl
  split
  · next r =>
    rw [matchScheme_none r (h r (List.suffix_cons '[' r))]
  · rfl

/-- The URL-line matcher cannot fire on such a string. -/
theorem mUrlLine_none_nohttp (b : Bool) (t : Str)
    (h : ∀ s, s <:+ t → matchLit ['h', 't', 't', 'p'] s = none) :
    mUrlLine b t = none := by
  unfold mUrlLine
  cases b with
  | false => rfl
  | true =>
    rw [if_pos rfl, matchScheme_none t (h t List.suffix_rfl)]

/-- The inline-URL matcher cannot fire on such a string. -/
theorem mInlineUrl_none_nohttp (b : Bool) (t : Str)
    (h : ∀ s, s <:+ t → matchLit ['h', 't', 't', 'p'] s = none) :
    mInlineUrl b t = none := by
  unfold mInlineUrl
  rw [matchScheme_none t (h t List.suffix_rfl)]

/-- The zero-width removal is the identity on strings without the five
characters. -/
theorem cleanZw_id (l : Str) (h : ∀ c ∈ l, isZw c = false) : cleanZw l = l := by
  have hall : ∀ c ∈ l, isZw c = false → (¬ c = '\u200B') ∧ (¬ c = '\u200C') ∧
      (¬ c = '\u200D') ∧ (¬ c = '\uFEFF') ∧ (¬ c = '\u034F') := by
    intro c _ hc
    simp only [isZw, Bool.or_eq_false_iff, beq_eq_false_iff_ne, ne_eq] at hc
    exact ⟨hc.1.1.1.1, hc.1.1.1.2, hc.1.1.2, hc.1.2, hc.2⟩
  have h1 : l.filter (fun c => c ≠ '\u200B') = l :=
    List.filter_eq_self.mpr (fun c hc =>
      decide_eq_true (hall c hc (h c hc)).1)
  have h2 : l.filter (fun c => c ≠ '\u200C') = l :=
    List.filter_eq_self.mpr (fun c hc =>
      decide_eq_true (hall c hc (h c hc)).2.1)
  have h3 : l.filter (fun c => c ≠ '\u200D') = l :=
    List.filter_eq_self.mpr (fun c hc =>
      decide_eq_true (hall c hc (h c hc)).2.2.1)
  have h4 : l.filter (fun c => c ≠ '\uFEFF') = l :=
    List.filter_eq_self.mpr (fun c hc =>
      decide_eq_true (hall c hc (h c hc)).2.2.2.1)
  have h5 : l.filter (fun c => c ≠ '\u034F') = l :=
    List.filter_eq_self.mpr (fun c hc =>
      decide_eq_true (hall c hc (h c hc)).2.2.2.2)
  unfold cleanZw
  rw [h1, h2, h3, h4, h5]

/-- A scan whose matcher never fires along the flag-correct chain of
suffixes is the identity: Q is an invariant of the scan relating the
line-start flag to the current suffix. -/
theorem replScan_id_chain (m : Matcher) (Q : Bool → Str → Prop)
    (hmQ : ∀ (b : Bool) (l : Str), Q b l → m b l = none)
    (hstep : ∀ (b : Bool) (c : Char) (cs : Str), Q b (c :: cs) → Q (isTerm c) cs) :
    ∀ (f : Nat) (b : Bool) (l : Str), Q b l → replScan m f b l = l := by
  intro f
  induction f with
  | zero => intro b l _; rfl
  | succ f ih =>
    intro b l hq
    cases l with
    | nil => rfl
    | cons c cs =>
      rw [replScan_step_none m f b c cs (hmQ b _ hq)]
      exact congrArg (c :: ·) (ih (isTerm c) cs (hstep b c cs hq))

/-- Line terminators are whitespace. -/
theorem isTerm_ws (c : Char) (h : isTerm c = true) : jsWs c = true := by
  simp only [isTerm, Bool.or_eq_true, beq_iff_eq] at h
  rcases h with ((rfl | rfl) | rfl) | rfl
  · rfl
  · rfl
  · rfl
  · rfl

/-- A non-whitespace character is not a line terminator. -/
theorem not_term_of_not_ws (c : Char) (h : jsWs c = false) : isTerm c = false := by
  cases hq : isTerm c with
  | false => rfl
  | true => rw [isTerm_ws c hq] at h; exact absurd h (by decide)

/-- The last element of a string is the last element of any of its
nonempty suffixes. -/
theorem getLast?_eq_of_suffix (x t : Str) (c : Char) (h : t <:+ x)
    (hl : t.getLast? = some c) : x.getLast? = some c := by
  obtain ⟨s, rfl⟩ := h
  rw [List.getLast?_append, hl]
  rfl

/-- A newline is whitespace (computing fact for simp). -/
theorem jsWs_nl : jsWs '\n' = true := rfl

/-- The whitespace-line cut fails on a single-newline run followed by a
non-terminator. -/
theorem wsCut_one_none (c2 : Char) (cs2 : Str) (hterm : isTerm c2 = false) :
    wsCut ('\n' :: c2 :: cs2) 1 = none := by
  unfold wsCut
  have hrev : (List.range (1 + 1)).reverse = [1, 0] := rfl
  rw [hrev]
  have hget : ('\n' :: c2 :: cs2).get? 1 = some c2 := rfl
  simp [List.find?_cons, hget, hterm]

/-- The whitespace-line matcher fires only at whitespace. -/
theorem mWsLine_none_head (b : Bool) (c : Char) (cs : Str)
    (hc : jsWs c = false) : mWsLine b (c :: cs) = none := by
  cases b with
  | false => rfl
  | true =>
    unfold mWsLine
    rw [if_pos rfl]
    simp [List.takeWhile_cons, hc]

/-- The whitespace-line matcher fails at a single newline followed by a
non-whitespace character. -/
theorem mWsLine_none_nl (c2 : Char) (cs2 : Str) (hc2 : jsWs c2 = false)
    (b : Bool) : mWsLine b ('\n' :: c2 :: cs2) = none := by
  cases b with
  | false => rfl
  | true =>
    have hr : ('\n' :: c2 :: cs2).takeWhile jsWs = ['\n'] := by
      simp [List.takeWhile_cons, hc2, jsWs_nl]
    have hw : wsCut ('\n' :: c2 :: cs2) 1 = none :=
      wsCut_one_none c2 cs2 (not_term_of_not_ws c2 hc2)
    unfold mWsLine
    rw [if_pos rfl]
    simp [hr, hw]

/-- The whitespace-line matcher never fires along the scan of a string with
normalized whitespace: any position offered to it with the line-start flag
set is the string start (non-whitespace head) or directly after a newline,
where the only possible whitespace is the second newline of a blank line,
after which a non-whitespace character follows. -/
theorem mWsLine_none_clean (x : Str)
    (hadj : ∀ t, t <:+ x → adjOK t = true)
    (h3nl : ∀ t, t <:+ x → tripleNlFree t = true)
    (hhead : ∀ c, x.head? = some c → jsWs c = false)
    (hlast : ∀ c, x.getLast? = some c → jsWs c = false)
    (b : Bool) (t : Str) (hsuf : t <:+ x)
    (himp : b = true → t = x ∨ '\n' :: t <:+ x) :
    mWsLine b t = none := by
  cases b with
  | false => rfl
  | true =>
    rcases himp rfl with heq | hnl
    · subst heq
      cases t with
      | nil => rfl
      | cons c cs => exact mWsLine_none_head true c cs (hhead c rfl)
    · cases t with
      | nil => rfl
      | cons c cs =>
        by_cases hc : jsWs c = true
        · have hcn : c = '\n' := by
            have ha := hadj ('\n' :: c :: cs) hnl
            simp [adjOK, hc, jsWs_nl] at ha
            exact ha
          subst hcn
          cases cs with
          | nil =>
            exfalso
            have hxl : x.getLast? = some '\n' :=
              getLast?_eq_of_suffix x ('\n' :: ['\n']) '\n' hnl rfl
            exact absurd (hlast '\n' hxl) (by decide)
          | cons c2 cs2 =>
            by_cases hc2 : jsWs c2 = true
            · exfalso
              have hsuf2 : ('\n' :: c2 :: cs2) <:+ x :=
                (List.suffix_cons '\n' ('\n' :: c2 :: cs2)).trans hnl
              have ha2 := hadj ('\n' :: c2 :: cs2) hsuf2
              have hc2n : c2 = '\n' := by
                simp [adjOK, hc2, jsWs_nl] at ha2
                exact ha2
              subst hc2n
              have h3 := h3nl ('\n' :: '\n' :: '\n' :: cs2) hnl
              simp [tripleNlFree] at h3
            · exact mWsLine_none_nl c2 cs2 (by simpa using hc2) true
        · exact mWsLine_none_head true c cs (by simpa using hc)

/-- The blank-run matcher never fires on a suffix of a string with
normalized whitespace: every whitespace run holds at most two newlines. -/
theorem mBlankRun_none_clean (x : Str)
    (hadj : ∀ t, t <:+ x → adjOK t = true)
    (h3nl : ∀ t, t <:+ x → tripleNlFree t = true)
    (b : Bool) (t : Str) (hsuf : t <:+ x) :
    mBlankRun b t = none := by
  cases t with
  | nil => rfl
  | cons c cs =>
    by_cases hcn : c = '\n'
    · subst hcn
      cases cs with
      | nil => rfl
      | cons c2 cs2 =>
        by_cases hc2 : jsWs c2 = true
        · have ha := hadj ('\n' :: c2 :: cs2) hsuf
          have hc2n : c2 = '\n' := by
            simp [adjOK, hc2, jsWs_nl] at ha
            exact ha
          subst hc2n
          cases cs2 with
          | nil => rfl
          | cons c3 cs3 =>
            by_cases hc3 : jsWs c3 = true
            · exfalso
              have hsuf3 : ('\n' :: c3 :: cs3) <:+ x :=
                (List.suffix_cons '\n' ('\n' :: c3 :: cs3)).trans hsuf
              have ha3 := hadj ('\n' :: c3 :: cs3) hsuf3
              have hc3n : c3 = '\n' := by
                simp [adjOK, hc3, jsWs_nl] at ha3
                exact ha3
              subst hc3n
              have h3 := h3nl ('\n' :: '\n' :: '\n' :: cs3) hsuf
              simp [tripleNlFree] at h3
            · unfold mBlankRun
              have hr : ('\n' :: '\n' :: c3 :: cs3).takeWhile jsWs = ['\n', '\n'] := by
                simp [List.takeWhile_cons, (by simpa using hc3 : jsWs c3 = false), jsWs_nl]
              simp [hr]
        · unfold mBlankRun
          have hr : ('\n' :: c2 :: cs2).takeWhile jsWs = ['\n'] := by
            simp [List.takeWhile_cons, (by simpa using hc2 : jsWs c2 = false), jsWs_nl]
          simp [hr]
    · unfold mBlankRun
      split
      · next heq => exact absurd (List.head_eq_of_cons_eq heq) hcn
      · rfl

/-- Space-and-tab collapsing is the identity when every space-or-tab is a
plain space and no two adjacent characters are both spaces or tabs. -/
theorem collapseSpTab_id_of (l : Str)
    (hsp : ∀ c ∈ l, spTab c = true → c = ' ')
    (hpair : ∀ (a b : Char) (t : Str), a :: b :: t <:+ l →
      ¬(spTab a = true ∧ spTab b = true)) :
    collapseSpTab l = l := by
  induction l with
  | nil => rfl
  | cons c ts ih =>
    cases ts with
    | nil =>
      by_cases h1 : spTab c = true
      · have hce : c = ' ' := hsp c (List.mem_cons_self c []) h1
        subst hce
        simp [collapseSpTab]
      · simp only [Bool.not_eq_true] at h1
        simp [collapseSpTab, h1]
    | cons c2 ts2 =>
      have ihx := ih
        (fun d hd hds => hsp d (List.mem_cons_of_mem c hd) hds)
        (fun a b t ht => hpair a b t (ht.trans (List.suffix_cons c (c2 :: ts2))))
      rw [collapseSpTab]
      by_cases h1 : spTab c = true
      · have h2 : spTab c2 = false := by
          have := hpair c c2 ts2 List.suffix_rfl
          cases hq : spTab c2 with
          | false => rfl
          | true => exact absurd ⟨h1, hq⟩ this
        simp only [h1, if_true, h2, Bool.false_eq_true, if_false]
        rw [hsp c (List.mem_cons_self c (c2 :: ts2)) h1]
        exact congrArg (' ' :: ·) ihx
      · simp only [Bool.not_eq_true] at h1
        simp only [h1, Bool.false_eq_true, if_false]
        exact congrArg (c :: ·) ihx

/-- Removing spaces after newlines is the identity when no space or tab
directly follows a newline; the flag invariant tracks the head condition. -/
theorem dropAfterNl_id_of (l : Str)
    (hpair : ∀ (b c : Char) (t : Str), b :: c :: t <:+ l → b = '\n' →
      spTab c = false) :
    ∀ (fl : Bool), (fl = true → ∀ c, l.head? = some c → spTab c = false) →
      dropAfterNl fl l = l := by
  induction l with
  | nil => intro fl _; rfl
  | cons c cs ih =>
    intro fl hfl
    rw [dropAfterNl]
    have hcond : (fl && spTab c) = false := by
      cases fl with
      | false => rfl
      | true =>
        rw [hfl rfl c rfl]
        rfl
    rw [hcond]
    simp only [Bool.false_eq_true, if_false]
    refine congrArg (c :: ·) (ih
      (fun b d t ht hb => hpair b d t (ht.trans (List.suffix_cons c cs)) hb) _ ?_)
    intro hcnl
    have hcn : c = '\n' := by simpa using hcnl
    cases cs with
    | nil => intro d hd; exact absurd hd (by simp)
    | cons c2 cs2 =>
      intro d hd
      have hdc : d = c2 := (Option.some.inj hd).symm
      subst hdc
      exact hpair c d cs2 List.suffix_rfl hcn

/-- Removing spaces before newlines is the identity when no space or tab
is followed by a space, tab or newline. -/
theorem dropBeforeNl_id_of (l : Str)
    (hpair : ∀ (a b : Char) (t : Str), a :: b :: t <:+ l → spTab a = true →
      spTab b = false ∧ ¬ b = '\n') :
    dropBeforeNl [] l = l := by
  induction l with
  | nil => rfl
  | cons c cs ih =>
    have ihx := ih
      (fun a b t ht ha => hpair a b t (ht.trans (List.suffix_cons c cs)) ha)
    rw [dropBeforeNl]
    by_cases h1 : spTab c = true
    · rw [if_pos h1]
      cases cs with
      | nil => rfl
      | cons c2 cs2 =>
        have h2 := hpair c c2 cs2 List.suffix_rfl h1
        rw [dropBeforeNl]
        rw [if_neg (by simp [h2.1]), if_neg h2.2]
        have ht : dropBeforeNl [] cs2 = cs2 := by
          have := ihx
          rw [dropBeforeNl] at this
          rw [if_neg (by simp [h2.1]), if_neg h2.2] at this
          simpa using this
        rw [ht]
        rfl
    · rw [if_neg h1]
      by_cases h2 : c = '\n'
      · rw [if_pos h2, ihx, h2]
      · rw [if_neg h2, ihx]
        rfl

/-- Stripping edge newlines is the identity when neither edge is a
newline. -/
theorem stripNlEdges_eq_self (l : Str)
    (hh : ∀ c, l.head? = some c → (c == '\n') = false)
    (hl : ∀ c, l.getLast? = some c → (c == '\n') = false) :
    stripNlEdges l = l := by
  unfold stripNlEdges dropTrailing
  have h1 : l.dropWhile (fun c => c == '\n') = l := by
    cases l with
    | nil => rfl
    | cons c cs =>
      rw [List.dropWhile_cons, hh c rfl]
      simp
  rw [h1]
  have h2 : l.reverse.dropWhile (fun c => c == '\n') = l.reverse := by
    cases hrev : l.reverse with
    | nil => rfl
    | cons c cs =>
      rw [List.dropWhile_cons]
      have : l.getLast? = some c := by
        rw [← List.head?_reverse, hrev]
        rfl
      rw [hl c this]
      simp
  rw [h2, List.reverse_reverse]

/-- Spaces and tabs are whitespace. -/
theorem spTab_ws (c : Char) (h : spTab c = true) : jsWs c = true := by
  rcases (by simpa [spTab] using h : c = ' ' ∨ c = '\t') with rfl | rfl
  · rfl
  · rfl

/-- The whole cleanup pipeline is the identity on a clean string: no http
literal at any position, no zero-width characters, whitespace restricted to
plain spaces and newlines, isolated whitespace except for double newlines,
no triple newlines, and non-whitespace edges. -/
theorem cleanEmailText_fixpoint (x : Str)
    (hhttp : ∀ t ∈ x.tails, matchLit ['h', 't', 't', 'p'] t = none)
    (hzw : ∀ c ∈ x, isZw c = false)
    (hwsk : ∀ c ∈ x, jsWs c = true → c = ' ' ∨ c = '\n')
    (hadj : ∀ t ∈ x.tails, adjOK t = true)
    (h3nl : ∀ t ∈ x.tails, tripleNlFree t = true)
    (hhead : ∀ c, x.head? = some c → jsWs c = false)
    (hlast : ∀ c, x.getLast? = some c → jsWs c = false) :
    cleanEmailText x = x := by
  by_cases hne : x = []
  · subst hne
    rfl
  · have hsfx : ∀ t, t <:+ x → matchLit ['h', 't', 't', 'p'] t = none :=
      fun t ht => hhttp t ((List.mem_tails t x).mpr ht)
    have hadjs : ∀ t, t <:+ x → adjOK t = true :=
      fun t ht => hadj t ((List.mem_tails t x).mpr ht)
    have h3nls : ∀ t, t <:+ x → tripleNlFree t = true :=
      fun t ht => h3nl t ((List.mem_tails t x).mpr ht)
    have h1 : jsTrim x = x := jsTrim_eq_self x hhead hlast
    have h2 : runScan mBracketUrl x = x := by
      unfold runScan
      exact replScan_id_of_none _ _ _ _ (fun b2 t ht =>
        mBracketUrl_none_nohttp b2 t (fun s hs => hsfx s (hs.trans ht)))
    have h3 : runScan mUrlLine x = x := by
      unfold runScan
      exact replScan_id_of_none _ _ _ _ (fun b2 t ht =>
        mUrlLine_none_nohttp b2 t (fun s hs => hsfx s (hs.trans ht)))
    have h4 : runScan mInlineUrl x = x := by
      unfold runScan
      exact replScan_id_of_none _ _ _ _ (fun b2 t ht =>
        mInlineUrl_none_nohttp b2 t (fun s hs => hsfx s (hs.trans ht)))
    have h5 : cleanZw x = x := cleanZw_id x hzw
    have h6 : runScan mWsLine x = x := by
      unfold runScan
      exact replScan_id_chain mWsLine
        (fun b t => t <:+ x ∧ (b = true → t = x ∨ '\n' :: t <:+ x))
        (fun b t hq => mWsLine_none_clean x hadjs h3nls hhead hlast b t hq.1 hq.2)
        (fun b c cs hq => ⟨(List.suffix_cons c cs).trans hq.1, fun hb => by
          have hcm : c ∈ x := hq.1.mem (List.mem_cons_self c cs)
          have hws := isTerm_ws c hb
          rcases hwsk c hcm hws with hsp | hnl2
          · rw [hsp] at hb
            exact absurd hb (by decide)
          · right
            rw [← hnl2]
            exact hq.1⟩)
        _ _ _ ⟨List.suffix_rfl, fun _ => Or.inl rfl⟩
    have h7 : runScan mBlankRun x = x := by
      unfold runScan
      exact replScan_id_of_none _ _ _ _ (fun b2 t ht =>
        mBlankRun_none_clean x hadjs h3nls b2 t ht)
    have h8 : collapseSpTab x = x := by
      refine collapseSpTab_id_of x ?_ ?_
      · intro c hc hct
        rcases hwsk c hc (spTab_ws c hct) with h | h
        · exact h
        · rw [h] at hct
          exact absurd hct (by decide)
      · intro a b t ht hab
        have haw := spTab_ws a hab.1
        have hbw := spTab_ws b hab.2
        have ha := hadjs (a :: b :: t) ht
        simp [adjOK, haw, hbw] at ha
        have := hab.1
        rw [ha.1] at this
        exact absurd this (by decide)
    have h9 : dropAfterNl false x = x := by
      refine dropAfterNl_id_of x ?_ false (fun h => absurd h (by decide))
      intro b c t ht hb
      subst hb
      cases hq : spTab c with
      | false => rfl
      | true =>
        have hcw := spTab_ws c hq
        have ha := hadjs ('\n' :: c :: t) ht
        simp [adjOK, hcw, jsWs_nl] at ha
        rw [ha] at hq
        exact absurd hq (by decide)
    have h10 : dropBeforeNl [] x = x := by
      refine dropBeforeNl_id_of x ?_
      intro a b t ht ha
      have haw := spTab_ws a ha
      constructor
      · cases hq : spTab b with
        | false => rfl
        | true =>
          have hbw := spTab_ws b hq
          have hadj2 := hadjs (a :: b :: t) ht
          simp [adjOK, haw, hbw] at hadj2
          rw [hadj2.1] at ha
          exact absurd ha (by decide)
      · intro hbn
        subst hbn
        have hadj2 := hadjs (a :: '\n' :: t) ht
        simp [adjOK, haw, jsWs_nl] at hadj2
        rw [hadj2] at ha
        exact absurd ha (by decide)
    have h11 : stripNlEdges x = x := by
      refine stripNlEdges_eq_self x ?_ ?_
      · intro c hc
        have hw := hhead c hc
        simp only [beq_eq_false_iff_ne, ne_eq]
        intro hcc
        rw [hcc] at hw
        exact absurd hw (by decide)
      · intro c hc
        have hw := hlast c hc
        simp only [beq_eq_false_iff_ne, ne_eq]
        intro hcc
        rw [hcc] at hw
        exact absurd hw (by decide)
    unfold cleanEmailText
    rw [if_neg hne]
    simp only [h1, h2, h3, h4, h5, h6, h7, h8, h9, h10, h11]

/-- Claim C2 (counterexample): the normalizer is not idempotent — removing
the zero-width character inside the broken scheme assembles a URL that the
URL-removal passes only see on the second run. -/
theorem c2_not_idempotent :
    cleanEmailText (cleanEmailText ("a ht\u200Btp://b").toList) ≠
      cleanEmailText ("a ht\u200Btp://b").toList := by decide

/-- Claim C2 (amended): the text normalizer is idempotent on every clean
input — no http literal at any position, no zero-width characters,
whitespace limited to plain spaces and newlines with no two adjacent
whitespace characters other than a double newline, no triple newline, and
non-whitespace first and last characters.  (On such inputs the normalizer
is the identity; in general it is not idempotent, see the
counterexample.) -/
theorem c2_normalize_idempotent_on_clean (x : Str)
    (hhttp : ∀ t ∈ x.tails, matchLit ['h', 't', 't', 'p'] t = none)
    (hzw : ∀ c ∈ x, isZw c = false)
    (hwsk : ∀ c ∈ x, jsWs c = true → c = ' ' ∨ c = '\n')
    (hadj : ∀ t ∈ x.tails, adjOK t = true)
    (h3nl : ∀ t ∈ x.tails, tripleNlFree t = true)
    (hhead : ∀ c, x.head? = some c → jsWs c = false)
    (hlast : ∀ c, x.getLast? = some c → jsWs c = false) :
    cleanEmailText (cleanEmailText x) = cleanEmailText x := by
  rw [cleanEmailText_fixpoint x hhttp hzw hwsk hadj h3nl hhead hlast]
  exact cleanEmailText_fixpoint x hhttp hzw hwsk hadj h3nl hhead hlast

/-- Witness for the amended Claim C2 theorem at a concrete clean input. -/
theorem c2_normalize_idempotent_on_clean_witness :
    cleanEmailText (cleanEmailText ("Hello world.\n\nBye.").toList) =
      cleanEmailText ("Hello world.\n\nBye.").toList :=
  c2_normalize_idempotent_on_clean ("Hello world.\n\nBye.").toList
    (by decide) (by decide) (by decide) (by decide) (by decide)
    (by intro c hc; cases hc; decide) (by intro c hc; cases hc; decide)

/-! ## Claim C8: URL removal shapes -/

/-- The URL-only-line matcher consumes the whole string when the string is
exactly http:// followed by one or more non-whitespace characters. -/
theorem mUrlLine_full (u : Str) (hne : u ≠ []) (hu : ∀ c ∈ u, jsWs c = false) :
    mUrlLine true ('h' :: 't' :: 't' :: 'p' :: ':' :: '/' :: '/' :: u) =
      some ([], 7 + u.length) := by
  have htw : u.takeWhile (fun c => !jsWs c) = u :=
    List.takeWhile_eq_self_iff.mpr (fun c hc => by simp [hu c hc])
  have hscheme : matchScheme ('h' :: 't' :: 't' :: 'p' :: ':' :: '/' :: '/' :: u) =
      some u := by
    simp [matchScheme, matchLit]
  unfold mUrlLine
  rw [if_pos rfl, hscheme]
  simp only [htw, List.drop_length]
  rw [if_neg hne]
  simp only [List.length_cons, Option.some.injEq, Prod.mk.injEq, true_and]
  omega

/-- cleanEmailText on a string that is exactly a bare URL line: the whole
string is removed. -/
theorem cleanEmailText_url_only (u : Str) (hne : u ≠ [])
    (hu : ∀ c ∈ u, jsWs c = false ∧ c ≠ '[') :
    cleanEmailText ('h' :: 't' :: 't' :: 'p' :: ':' :: '/' :: '/' :: u) = [] := by
  have h0 : ('h' :: 't' :: 't' :: 'p' :: ':' :: '/' :: '/' :: u) ≠ ([] : Str) := by
    simp
  have htrim : jsTrim ('h' :: 't' :: 't' :: 'p' :: ':' :: '/' :: '/' :: u) =
      'h' :: 't' :: 't' :: 'p' :: ':' :: '/' :: '/' :: u := by
    refine jsTrim_eq_self _ ?_ ?_
    · intro c hc
      cases hc
      decide
    · intro c hc
      cases u with
      | nil => exact absurd rfl hne
      | cons x xs =>
        have hsplit : (('h' :: 't' :: 't' :: 'p' :: ':' :: '/' :: '/' :: (x :: xs)) : Str) =
            ['h', 't', 't', 'p', ':', '/', '/'] ++ (x :: xs) := rfl
        rw [hsplit, List.getLast?_append] at hc
        cases h2 : (x :: xs).getLast? with
        | none =>
          rw [List.getLast?_eq_getLast (x :: xs) (by simp)] at h2
          exact absurd h2 (by simp)
        | some d =>
          rw [h2] at hc
          simp only [Option.or_some, Option.some.injEq] at hc
          have hdm : d ∈ x :: xs :=
            List.mem_of_mem_getLast? (by simp [Option.mem_def, h2])
          rw [← hc]
          exact (hu d hdm).1
  have hbrk : runScan mBracketUrl ('h' :: 't' :: 't' :: 'p' :: ':' :: '/' :: '/' :: u) =
      'h' :: 't' :: 't' :: 'p' :: ':' :: '/' :: '/' :: u := by
    refine replScan_id_head mBracketUrl (fun c => c == '[')
      mBracketUrl_none_nil
      (fun b c t h => mBracketUrl_none b c t (by simpa using h)) _ _ _ ?_
    intro c hc
    simp only [List.mem_cons] at hc
    rcases hc with rfl | rfl | rfl | rfl | rfl | rfl | rfl | hc
    · rfl
    · rfl
    · rfl
    · rfl
    · rfl
    · rfl
    · rfl
    · simpa using (hu c hc).2
  have hdrop : (('h' :: 't' :: 't' :: 'p' :: ':' :: '/' :: '/' :: u) : Str).drop
      (7 + u.length) = [] := by
    have hlen : 7 + u.length =
        (('h' :: 't' :: 't' :: 'p' :: ':' :: '/' :: '/' :: u) : Str).length := by
      simp only [List.length_cons]
      omega
    rw [hlen, List.drop_length]
  have hurl : runScan mUrlLine ('h' :: 't' :: 't' :: 'p' :: ':' :: '/' :: '/' :: u) =
      [] := by
    unfold runScan
    rw [replScan, mUrlLine_full u hne (fun c hc => (hu c hc).1)]
    dsimp only
    rw [hdrop, replScan_nil]
    rfl
  simp only [cleanEmailText, if_neg h0]
  rw [htrim, hbrk, hurl]
  rfl

/-- Claim C8: a line that is only a bare URL is removed entirely (for any
non-empty bracket-free whitespace-free URL tail); an embedded URL is
removed with the surrounding words kept, leaving the double space before
whitespace collapsing and the single space after the full pipeline. -/
theorem c8_url_removal :
    (∀ u : Str, u ≠ [] → (∀ c ∈ u, jsWs c = false ∧ c ≠ '[') →
      cleanEmailText ('h' :: 't' :: 't' :: 'p' :: ':' :: '/' :: '/' :: u) = []) ∧
    cleanEmailTextPre ("See http://x.com for more").toList =
      ("See  for more").toList ∧
    cleanEmailText ("See http://x.com for more").toList =
      ("See for more").toList := by
  refine ⟨fun u hne hu => cleanEmailText_url_only u hne hu, by decide, by decide⟩

/-- Witness for c8_url_removal at a concrete URL. -/
theorem c8_url_removal_witness :
    cleanEmailText ('h' :: 't' :: 't' :: 'p' :: ':' :: '/' :: '/' :: ("x.com").toList) =
      [] :=
  c8_url_removal.1 ("x.com").toList (by decide) (by decide)

end MailMcp
